import Mathlib

/-!
Shallow embedding of the pygame maze game's algorithmic core
(src/maze.py, src/pathfinding.py, src/camera.py, src/enemy.py),
together with theorems settling the specification claims.

Conventions of the embedding:
* Python tuples `(x, y)` become `Pos := Int × Int`.
* Python `List[List[int]]` grids become `List (List Nat)`.
* Python sets used only for membership become `List`/`Finset` as noted.
* Python `while`/recursion becomes structural recursion on an explicit
  fuel argument; the fuel passed by the top-level entry points is shown
  (where a claim needs it) to be large enough that the fueled run agrees
  with the unbounded Python loop.
* `time.time()` values are passed in explicitly as `Rat` parameters.
-/

set_option maxRecDepth 10000

/-- A coordinate pair `(x, y)`, as used throughout the Python sources. -/
abbrev Pos := Int × Int

/-- Embedding of the `Maze` class state (src/maze.py): `width`, `height`
and the row-major grid where `1 = wall, 0 = path`. -/
structure Maze where
  width : Nat
  height : Nat
  grid : List (List Nat)
deriving Repr, DecidableEq

namespace Maze

/-- `self.grid[y][x]` for in-bounds indices (out-of-range reads are
guarded away by the callers in the source; the default is immaterial). -/
def getCell (m : Maze) (x y : Int) : Nat :=
  (m.grid.getD y.toNat []).getD x.toNat 1

/-- Embedding of `Maze.is_wall` (src/maze.py lines 56-69). -/
def is_wall (m : Maze) (x y : Int) : Bool :=
  if 0 ≤ x ∧ x < (m.width : Int) ∧ 0 ≤ y ∧ y < (m.height : Int) then
    m.getCell x y == 1
  else
    true

/-- Embedding of `Maze.is_path` (src/maze.py lines 71-84). -/
def is_path (m : Maze) (x y : Int) : Bool :=
  if 0 ≤ x ∧ x < (m.width : Int) ∧ 0 ≤ y ∧ y < (m.height : Int) then
    m.getCell x y == 0
  else
    false

/-- The class invariant of `Maze`: the grid has `height` rows of `width`
cells each, and every cell holds `0` or `1` (the constructor fills the
grid with `1` and `generate_maze` only ever writes `0`). -/
def wf (m : Maze) : Prop :=
  m.grid.length = m.height ∧
  (∀ row ∈ m.grid, row.length = m.width) ∧
  (∀ row ∈ m.grid, ∀ c ∈ row, c = 0 ∨ c = 1)

instance (m : Maze) : Decidable m.wf := by
  unfold wf; infer_instance

end Maze

/-- Embedding of the `Camera` class state (src/camera.py). -/
structure Camera where
  vision_range : Int
  maze_width : Int
  maze_height : Int
deriving Repr, DecidableEq

/-- Python `range(a, b)` over integers, in order. -/
def pyRange (a b : Int) : List Int :=
  (List.range (b - a).toNat).map (fun (i : Nat) => a + (i : Int))

namespace Camera

/-- Embedding of `Camera.get_visible_tiles` (src/camera.py lines 23-49):
the double loop over `dx, dy ∈ range(-vision_range, vision_range+1)`
inserting `(player_x+dx, player_y+dy)` into a set when the Manhattan
distance is within range and the coordinate is in bounds.  The Python
`set` is modelled as a `Finset`. -/
def get_visible_tiles (c : Camera) (player_x player_y : Int) : Finset Pos :=
  (pyRange (-c.vision_range) (c.vision_range + 1)).foldl (fun acc dx =>
    (pyRange (-c.vision_range) (c.vision_range + 1)).foldl (fun acc2 dy =>
      if |dx| + |dy| ≤ c.vision_range then
        if 0 ≤ player_x + dx ∧ player_x + dx < c.maze_width ∧
            0 ≤ player_y + dy ∧ player_y + dy < c.maze_height then
          insert (player_x + dx, player_y + dy) acc2
        else acc2
      else acc2) acc) ∅

end Camera

/-- Embedding of the `Enemy` class state (src/enemy.py), restricted to the
plain-data fields (the pygame sprite surface and RGB color are rendering
artifacts outside the algorithmic core).  Wall-clock values are `Rat`. -/
structure Enemy where
  x : Int
  y : Int
  tile_size : Int
  direction : String
  is_alive : Bool
  move_delay : Rat
  last_move_time : Rat
  path : List Pos
  path_index : Nat
  recalc_interval : Nat
  moves_since_recalc : Nat
  algorithm : String
  vision_range : Int
  player_detected : Bool
  hit_animation_time : Rat
  is_hit : Bool
  hit_start_time : Rat
deriving Repr, DecidableEq

namespace Enemy

/-- Embedding of `Enemy.hit` (src/enemy.py lines 90-103).  `now` is the
value `time.time()` would return; the method returns the boolean result
together with the updated object state. -/
def hit (e : Enemy) (now : Rat) : Bool × Enemy :=
  if !e.is_alive then
    (false, e)
  else
    (true, { e with is_alive := false, is_hit := true, hit_start_time := now })

end Enemy

/-- The 4-neighbour enumeration used identically by all three strategies
(src/pathfinding.py lines 102-107, 187-192, 277-282): Up, Down, Left,
Right in that fixed order. -/
def pyNeighbors (p : Pos) : List Pos :=
  [(p.1, p.2 - 1), (p.1, p.2 + 1), (p.1 - 1, p.2), (p.1 + 1, p.2)]

/-- Embedding of `PathFinder._heuristic` (src/pathfinding.py lines 43-55):
Manhattan distance.  All costs in this program are nonnegative integers,
so `Nat` replaces Python's float. -/
def heuristic (pos1 pos2 : Pos) : Nat :=
  (|pos1.1 - pos2.1| + |pos1.2 - pos2.2|).toNat

/-- Embedding of the `Node` class (src/pathfinding.py lines 9-28).
Python `Node` objects are mutable and aliased between `open_set` and
`node_dict`; the embedding stores them in an arena (a list indexed by
creation order) and passes indices around, so in-place mutation becomes
`List.set` on the arena.  `parent` is an arena index. -/
structure ANode where
  position : Pos
  g_cost : Nat
  h_cost : Nat
  f_cost : Nat
  parent : Option Nat
deriving Repr, DecidableEq

instance : Inhabited ANode := ⟨⟨(0, 0), 0, 0, 0, none⟩⟩

/-- `Node.__lt__` (src/pathfinding.py lines 26-28): compare by `f_cost`,
reading the *current* (possibly mutated) node contents. -/
def nodeLt (arena : List ANode) (i j : Nat) : Bool :=
  (arena.getD i default).f_cost < (arena.getD j default).f_cost

/-- Association-list lookup for Python dicts keyed by coordinates.
New bindings are prepended; keys are never overwritten in this program,
so prepend-lookup agrees with dict semantics. -/
def alookup {β : Type} : List (Pos × β) → Pos → Option β
  | [], _ => none
  | (k, v) :: rest, p => if p = k then some v else alookup rest p

/-- CPython `heapq._siftdown(heap, startpos, pos)` after `newitem` has
been read from `heap[pos]`: bubble `newitem` up while it compares less
than its parent.  `pos` strictly decreases, so `fuel = pos + 1` (used by
all callers) never runs out. -/
def siftdownAux (arena : List ANode) (heap : List Nat) (startpos pos newitem : Nat) :
    Nat → List Nat
  | 0 => heap.set pos newitem
  | fuel + 1 =>
    if startpos < pos then
      let parentpos := (pos - 1) / 2
      let parentv := heap.getD parentpos 0
      if nodeLt arena newitem parentv then
        siftdownAux arena (heap.set pos parentv) startpos parentpos newitem fuel
      else heap.set pos newitem
    else heap.set pos newitem

/-- CPython `heapq._siftdown`. -/
def siftdown (arena : List ANode) (heap : List Nat) (startpos pos : Nat) : List Nat :=
  siftdownAux arena heap startpos pos (heap.getD pos 0) (pos + 1)

/-- The loop of CPython `heapq._siftup`: walk the smaller-child path down
to a leaf, shifting children up; returns the final heap and position.
The position strictly increases and is bounded by the length, so
`fuel = heap.length + 1` never runs out. -/
def siftupAux (arena : List ANode) (heap : List Nat) (pos : Nat) :
    Nat → List Nat × Nat
  | 0 => (heap, pos)
  | fuel + 1 =>
    let endpos := heap.length
    let childpos := 2 * pos + 1
    if childpos < endpos then
      let rightpos := childpos + 1
      let cp :=
        if rightpos < endpos ∧ ¬ nodeLt arena (heap.getD childpos 0) (heap.getD rightpos 0) then
          rightpos
        else childpos
      siftupAux arena (heap.set pos (heap.getD cp 0)) cp fuel
    else (heap, pos)

/-- CPython `heapq._siftup(heap, pos)`: after the downward walk, place
`newitem` and restore order upward with `_siftdown`. -/
def siftup (arena : List ANode) (heap : List Nat) (pos : Nat) : List Nat :=
  let newitem := heap.getD pos 0
  let walked := siftupAux arena heap pos (heap.length + 1)
  siftdownAux arena walked.1 pos walked.2 newitem (walked.2 + 1)

/-- CPython `heapq.heappush`. -/
def heappush (arena : List ANode) (heap : List Nat) (item : Nat) : List Nat :=
  let h := heap ++ [item]
  siftdown arena h 0 (h.length - 1)

/-- CPython `heapq.heappop` (callers only invoke it on nonempty heaps). -/
def heappop (arena : List ANode) (heap : List Nat) : Nat × List Nat :=
  let lastelt := heap.getLast?.getD 0
  let rest := heap.dropLast
  if rest.isEmpty then (lastelt, [])
  else (rest.getD 0 0, siftup arena (rest.set 0 lastelt) 0)

/-- The mutable state of one `AStar.find_path` call: the node arena, the
`open_set` heap of arena indices, the `closed_set` (a list recording
insertion order, used only through membership), and `node_dict`. -/
structure AState where
  arena : List ANode
  openh : List Nat
  closed : List Pos
  dict : List (Pos × Nat)
deriving Repr

/-- The body of the `for neighbor_pos in neighbors` loop of
`AStar.find_path` (src/pathfinding.py lines 109-129), processing the
neighbour list sequentially. -/
def astarRelax (m : Maze) (goal : Pos) (curIdx : Nat) :
    List Pos → AState → AState
  | [], st => st
  | np :: rest, st =>
    if np ∈ st.closed ∨ m.is_wall np.1 np.2 then
      astarRelax m goal curIdx rest st
    else
      let g := (st.arena.getD curIdx default).g_cost + 1
      let h := heuristic np goal
      match alookup st.dict np with
      | some nIdx =>
        if g < (st.arena.getD nIdx default).g_cost then
          let old := st.arena.getD nIdx default
          let arena' := st.arena.set nIdx
            { old with g_cost := g, f_cost := g + h, parent := some curIdx }
          astarRelax m goal curIdx rest { st with arena := arena' }
        else
          astarRelax m goal curIdx rest st
      | none =>
        let node : ANode :=
          { position := np, g_cost := g, h_cost := h, f_cost := g + h, parent := some curIdx }
        let idx := st.arena.length
        let arena' := st.arena ++ [node]
        let st' : AState :=
          { arena := arena'
            openh := heappush arena' st.openh idx
            closed := st.closed
            dict := (np, idx) :: st.dict }
        astarRelax m goal curIdx rest st'

/-- Embedding of `AStar._reconstruct_path` (src/pathfinding.py lines
134-153): follow parent links, collecting positions, then reverse.
`fuel = arena.length + 1` suffices on the states the search produces. -/
def reconstructA (arena : List ANode) : Nat → Nat → List Pos → List Pos
  | 0, _, acc => acc
  | fuel + 1, idx, acc =>
    let nd := arena.getD idx default
    match nd.parent with
    | none => nd.position :: acc
    | some j => reconstructA arena fuel j (nd.position :: acc)

/-- The `while open_set` loop of `AStar.find_path` (src/pathfinding.py
lines 91-132). -/
def astarLoop (m : Maze) (goal : Pos) : Nat → AState → List Pos
  | 0, _ => []
  | fuel + 1, st =>
    match st.openh with
    | [] => []
    | _ :: _ =>
      let popped := heappop st.arena st.openh
      let curIdx := popped.1
      let cur := st.arena.getD curIdx default
      if cur.position = goal then
        reconstructA st.arena (st.arena.length + 1) curIdx []
      else
        let st' : AState :=
          { st with openh := popped.2, closed := st.closed ++ [cur.position] }
        astarLoop m goal fuel (astarRelax m goal curIdx (pyNeighbors cur.position) st')

/-- Embedding of `AStar.find_path` (src/pathfinding.py lines 65-132). -/
def AStarFindPath (m : Maze) (start goal : Pos) : List Pos :=
  if !(m.is_path start.1 start.2) || !(m.is_path goal.1 goal.2) then []
  else
    let h0 := heuristic start goal
    let startNode : ANode :=
      { position := start, g_cost := 0, h_cost := h0, f_cost := h0, parent := none }
    astarLoop m goal (m.width * m.height + 2)
      { arena := [startNode], openh := [0], closed := [], dict := [(start, 0)] }

/-- Embedding of `BFS._reconstruct_path` (src/pathfinding.py lines
206-226): follow the parent dictionary from `goal` back to `start`.
In Python a missing key would raise; the loop invariants show every
lookup along the chain succeeds, so the fallback branch is dead. -/
def reconstructB (parent : List (Pos × Option Pos)) : Nat → Pos → List Pos → List Pos
  | 0, _, acc => acc
  | fuel + 1, cur, acc =>
    match alookup parent cur with
    | none => cur :: acc
    | some none => cur :: acc
    | some (some prev) => reconstructB parent fuel prev (cur :: acc)

/-- The body of the `for neighbor_pos in neighbors` loop of
`BFS.find_path` (src/pathfinding.py lines 194-201): returns the updated
visited set, parent map and queue. -/
def bfsRelax (m : Maze) (current : Pos) :
    List Pos → List Pos × List (Pos × Option Pos) × List Pos →
    List Pos × List (Pos × Option Pos) × List Pos
  | [], acc => acc
  | np :: rest, (visited, parent, queue) =>
    if np ∈ visited ∨ m.is_wall np.1 np.2 then
      bfsRelax m current rest (visited, parent, queue)
    else
      bfsRelax m current rest (np :: visited, (np, some current) :: parent, queue ++ [np])

/-- The `while queue` loop of `BFS.find_path` (src/pathfinding.py lines
179-204). -/
def bfsLoop (m : Maze) (goal : Pos) :
    Nat → List Pos → List Pos → List (Pos × Option Pos) → List Pos
  | 0, _, _, _ => []
  | fuel + 1, queue, visited, parent =>
    match queue with
    | [] => []
    | current :: rest =>
      if current = goal then
        reconstructB parent (parent.length + 1) goal []
      else
        let upd := bfsRelax m current (pyNeighbors current) (visited, parent, rest)
        bfsLoop m goal fuel upd.2.2 upd.1 upd.2.1

/-- Embedding of `BFS.find_path` (src/pathfinding.py lines 159-204). -/
def BFSFindPath (m : Maze) (start goal : Pos) : List Pos :=
  if !(m.is_path start.1 start.2) || !(m.is_path goal.1 goal.2) then []
  else
    bfsLoop m goal (m.width * m.height + 2) [start] [start] [(start, none)]

mutual

/-- Embedding of `DFS._dfs_helper` (src/pathfinding.py lines 255-294).
Returns `(found, visited, path)`; `none` is fuel exhaustion, which the
fuel chosen by `DFSFindPath` never reaches. -/
def dfsHelper (m : Maze) (goal : Pos) (fuel : Nat) (current : Pos)
    (visited path : List Pos) : Option (Bool × List Pos × List Pos) :=
  match fuel with
  | 0 => none
  | fuel + 1 =>
    let visited' := current :: visited
    let path' := path ++ [current]
    if current = goal then some (true, visited', path')
    else
      match dfsChildren m goal fuel (pyNeighbors current) visited' path' with
      | none => none
      | some (true, v, p) => some (true, v, p)
      | some (false, v, p) => some (false, v, p.dropLast)

/-- The `for neighbor_pos in neighbors` loop of `DFS._dfs_helper`
(src/pathfinding.py lines 284-290), with early return on success. -/
def dfsChildren (m : Maze) (goal : Pos) (fuel : Nat) (nps : List Pos)
    (visited path : List Pos) : Option (Bool × List Pos × List Pos) :=
  match nps with
  | [] => some (false, visited, path)
  | np :: rest =>
    if np ∈ visited ∨ m.is_wall np.1 np.2 then
      dfsChildren m goal fuel rest visited path
    else
      match dfsHelper m goal fuel np visited path with
      | none => none
      | some (true, v, p) => some (true, v, p)
      | some (false, v, p) => dfsChildren m goal fuel rest v p

end

/-- Embedding of `DFS.find_path` (src/pathfinding.py lines 232-253). -/
def DFSFindPath (m : Maze) (start goal : Pos) : List Pos :=
  if !(m.is_path start.1 start.2) || !(m.is_path goal.1 goal.2) then []
  else
    match dfsHelper m goal (m.width * m.height + 2) start [] [] with
    | some (true, _, p) => p
    | _ => []

/-- Write `grid[y][x] = v`.  The generator only ever writes at coordinates
proved strictly interior, where this agrees with Python list indexing. -/
def setCell (g : List (List Nat)) (x y : Int) (v : Nat) : List (List Nat) :=
  g.set y.toNat ((g.getD y.toNat []).set x.toNat v)

/-- Read `grid[y][x]` (same caveat as `setCell`). -/
def gridGet (g : List (List Nat)) (x y : Int) : Nat :=
  (g.getD y.toNat []).getD x.toNat 1

/-- The four carving directions of `Maze.generate_maze`
(src/maze.py line 32). -/
def baseDirections : List Pos := [(0, -2), (2, 0), (0, 2), (-2, 0)]

/-- The `for dx, dy in directions` loop of `Maze.generate_maze`
(src/maze.py lines 39-51): try each direction in the shuffled order;
on the first strictly-interior unvisited wall cell, carve the
intervening wall and the target and report the new cell. -/
def genTry (w h : Nat) (x y : Int) (grid : List (List Nat)) :
    List Pos → Option (Pos × List (List Nat))
  | [] => none
  | (dx, dy) :: rest =>
    let nx := x + dx
    let ny := y + dy
    if 0 < nx ∧ nx < (w : Int) - 1 ∧ 0 < ny ∧ ny < (h : Int) - 1 then
      if gridGet grid nx ny == 1 then
        some ((nx, ny), setCell (setCell grid (x + dx / 2) (y + dy / 2) 0) nx ny 0)
      else genTry w h x y grid rest
    else genTry w h x y grid rest

/-- The `while stack` loop of `Maze.generate_maze` (src/maze.py lines
34-54).  `perms k` is the order `directions` has after the `k`-th
`random.shuffle` call; the stack is kept top-first.  Every claim about
the generator is proved for all permutation streams. -/
def genLoop (w h : Nat) (perms : Nat → List Pos) :
    Nat → Nat → List (List Nat) → List Pos → List (List Nat)
  | _, 0, grid, _ => grid
  | _, _ + 1, grid, [] => grid
  | k, fuel + 1, grid, (x, y) :: rest =>
    match genTry w h x y grid (perms k) with
    | some (np, grid') => genLoop w h perms (k + 1) fuel grid' (np :: (x, y) :: rest)
    | none => genLoop w h perms (k + 1) fuel grid rest

/-- Embedding of `Maze.__init__` + `Maze.generate_maze` (src/maze.py
lines 10-54): all-wall grid, carve `(1,1)`, then run the backtracking
loop.  The fuel `2*w*h + 2` dominates the loop's decreasing measure
(twice the number of remaining wall cells plus the stack height), so the
fueled run equals the Python loop's result. -/
def generateMaze (w h : Nat) (perms : Nat → List Pos) : Maze :=
  let grid0 := List.replicate h (List.replicate w 1)
  let grid1 := setCell grid0 1 1 0
  ⟨w, h, genLoop w h perms 0 (2 * w * h + 2) grid1 [(1, 1)]⟩

/-- A 10×10 all-wall grid (the literal fixture of the invalid-endpoint
spec case: its cell `(0,0)` is Wall). -/
def allWall10 : Maze :=
  ⟨10, 10, List.replicate 10 (List.replicate 10 1)⟩

/-- A concrete well-formed 9×7 maze (a run of the repository's generator
followed by three extra wall openings).  On it `AStar.find_path` and
`BFS.find_path` return paths of different lengths from `(7,2)` to
`(1,1)`: the in-place `f_cost`/`parent` mutation of nodes already inside
the `heapq` list corrupts the heap order, so A* closes a node with a
non-optimal `g_cost` and returns a 12-cell path where BFS returns the
true shortest 10-cell path. -/
def cexMaze : Maze :=
  ⟨9, 7, [
    [1, 1, 1, 1, 1, 1, 1, 1, 1],
    [1, 0, 1, 0, 0, 0, 0, 0, 1],
    [1, 0, 1, 0, 0, 1, 1, 0, 1],
    [1, 0, 0, 0, 0, 0, 0, 0, 1],
    [1, 0, 1, 1, 1, 0, 1, 1, 1],
    [1, 0, 0, 0, 0, 0, 0, 0, 1],
    [1, 1, 1, 1, 1, 1, 1, 1, 1]]⟩


/-- A concrete live enemy (mirroring `Enemy.__init__` defaults). -/
def sampleEnemy : Enemy :=
  { x := 1, y := 1, tile_size := 32, direction := "down", is_alive := true,
    move_delay := 1/2, last_move_time := 0, path := [], path_index := 0,
    recalc_interval := 1, moves_since_recalc := 0, algorithm := "A*",
    vision_range := 8, player_detected := false, hit_animation_time := 1/2,
    is_hit := false, hit_start_time := 0 }


/-- A route through the maze: a nonempty coordinate sequence from `s` to
`g` whose consecutive elements are 4-neighbours and whose members are all
Path cells.  This is the notion of "4-directional unit-step route through
Path cells" used by the claims. -/
def IsRoute (m : Maze) (s g : Pos) (r : List Pos) : Prop :=
  r.head? = some s ∧ r.getLast? = some g ∧
  r.Chain' (fun p q => q ∈ pyNeighbors p) ∧
  ∀ p ∈ r, m.is_path p.1 p.2 = true

/-- One carving move of reachability: `b` is a 4-neighbour of `a` and a
Path cell. -/
def StepTo (m : Maze) (a b : Pos) : Prop :=
  b ∈ pyNeighbors a ∧ m.is_path b.1 b.2 = true

/-- Reachability through Path cells by 4-directional moves. -/
def Reach (m : Maze) (a b : Pos) : Prop :=
  Relation.ReflTransGen (StepTo m) a b

/-- Dimension invariant of a raw grid: `height` rows of `width` cells. -/
def GridDims (w h : Nat) (g : List (List Nat)) : Prop :=
  g.length = h ∧ ∀ row ∈ g, row.length = w

/-- Strictly interior coordinates — the bound `0 < nx < width-1` and
`0 < ny < height-1` checked by the generation loop (src/maze.py line 43). -/
def InteriorPos (w h : Nat) (p : Pos) : Prop :=
  0 < p.1 ∧ p.1 < (w : Int) - 1 ∧ 0 < p.2 ∧ p.2 < (h : Int) - 1

/-- All outer-border cells of a raw grid are walls. -/
def BorderWalls (w h : Nat) (g : List (List Nat)) : Prop :=
  ∀ x y : Int, 0 ≤ x → x < (w : Int) → 0 ≤ y → y < (h : Int) →
    (x = 0 ∨ x = (w : Int) - 1 ∨ y = 0 ∨ y = (h : Int) - 1) → gridGet g x y = 1

/-- Success contract of the DFS helper: the returned path extends the
accumulator by a nonempty simple unit-step chain that starts at one of
the candidate cells and ends at the goal, disjoint from the visited set
at entry. -/
def DfsExt (goal : Pos) (v0 nps path pfinal : List Pos) : Prop :=
  ∃ ext : List Pos, pfinal = path ++ ext ∧ (∃ np ∈ nps, ext.head? = some np) ∧
    ext.getLast? = some goal ∧ ext.Chain' (fun p q => q ∈ pyNeighbors p) ∧
    ext.Nodup ∧ ∀ e ∈ ext, e ∉ v0

/-- Failure contract of the DFS helper and its neighbour loop: the
visited set only grows, every newly visited cell is a non-wall cell,
the newly visited region is closed under non-wall 4-neighbour moves,
and the goal was not newly visited. -/
def DfsFailConcl (m : Maze) (goal : Pos) (v0 vfinal : List Pos) : Prop :=
  (∀ q ∈ v0, q ∈ vfinal) ∧
  (∀ q ∈ vfinal, q ∈ v0 ∨ m.is_wall q.1 q.2 = false) ∧
  (∀ a ∈ vfinal, a ∉ v0 → ∀ b ∈ pyNeighbors a, m.is_wall b.1 b.2 = false → b ∈ vfinal) ∧
  (goal ∈ vfinal → goal ∈ v0)

/-- The finite set of in-bounds coordinates of a maze (the universe the
search measures against). -/
def boundsFinset (m : Maze) : Finset Pos :=
  Finset.Ico (0 : Int) (m.width : Int) ×ˢ Finset.Ico (0 : Int) (m.height : Int)

/-- Parent-chain predicate for the BFS parent dictionary: `PChain m
parent s p n` says following the parent pointers from `p` reaches the
root entry `s` (whose stored parent is `None`) in `n` unit steps
through non-wall cells. -/
inductive PChain (m : Maze) (parent : List (Pos × Option Pos)) (s : Pos) :
    Pos → Nat → Prop
  | base : alookup parent s = some none → PChain m parent s s 0
  | step {u v : Pos} {n : Nat} : alookup parent v = some (some u) →
      v ∈ pyNeighbors u → m.is_wall v.1 v.2 = false →
      PChain m parent s u n → PChain m parent s v (n + 1)

/-- Loop invariant of `BFS.find_path`: `lens` lists the parent-chain
depth of each queue entry in order. -/
structure BFSInv (m : Maze) (s goal : Pos) (queue visited : List Pos)
    (parent : List (Pos × Option Pos)) (lens : List Nat) : Prop where
  hkeys : ∀ p : Pos, p ∈ visited ↔ (alookup parent p).isSome
  hqv : ∀ p ∈ queue, p ∈ visited
  hroot : alookup parent s = some none
  hsv : s ∈ visited
  hpair : List.Forall₂ (fun p n => PChain m parent s p n) queue lens
  hsort : lens.Pairwise (· ≤ ·)
  htwo : ∀ a ∈ lens, ∀ b ∈ lens, a ≤ b + 1
  hmin : ∀ p ∈ visited, ∃ n, PChain m parent s p n ∧
    (∀ r, IsRoute m s p r → n + 1 ≤ r.length) ∧ n + 1 ≤ parent.length
  hfront : ∀ a ∈ visited, a ∈ queue ∨
    (∀ b ∈ pyNeighbors a, m.is_wall b.1 b.2 = false → b ∈ visited)
  hgq : goal ∈ visited → goal ∈ queue

/-! ## Basic lemmas about the grid model -/

/-- `List.getD` at an in-range index is a member of the list. -/
theorem getD_mem_of_lt {α : Type} (l : List α) (n : Nat) (d : α) (h : n < l.length) :
    l.getD n d ∈ l := by
  rw [List.getD_eq_getElem?_getD, List.getElem?_eq_getElem h]
  exact List.getElem_mem h

/-- In-bounds cells of a well-formed maze hold `0` or `1`. -/
theorem getCell_zero_or_one (m : Maze) (hwf : m.wf) {x y : Int}
    (hx : 0 ≤ x) (hxw : x < (m.width : Int)) (hy : 0 ≤ y) (hyh : y < (m.height : Int)) :
    m.getCell x y = 0 ∨ m.getCell x y = 1 := by
  obtain ⟨hlen, hrow, hcell⟩ := hwf
  have hylt : y.toNat < m.grid.length := by omega
  have hrowmem : m.grid.getD y.toNat [] ∈ m.grid := getD_mem_of_lt _ _ _ hylt
  have hxlt : x.toNat < (m.grid.getD y.toNat []).length := by
    rw [hrow _ hrowmem]; omega
  exact hcell _ hrowmem _ (getD_mem_of_lt _ _ _ hxlt)

/-- `is_wall` is decided negatively by `is_path` on any maze (no
well-formedness needed in this direction). -/
theorem is_path_false_of_is_wall (m : Maze) (x y : Int)
    (h : m.is_wall x y = true) : m.is_path x y = false := by
  unfold Maze.is_wall at h
  unfold Maze.is_path
  by_cases hb : 0 ≤ x ∧ x < (m.width : Int) ∧ 0 ≤ y ∧ y < (m.height : Int)
  · rw [if_pos hb] at h ⊢
    have : m.getCell x y = 1 := by
      have := of_decide_eq_true (by simpa using h)
      omega
    simp [this]
  · rw [if_neg hb]

/-- On a well-formed maze, a non-wall in-bounds query is a path query;
packaged as the converse direction of `is_path_false_of_is_wall`. -/
theorem is_path_of_not_is_wall (m : Maze) (hwf : m.wf) (x y : Int)
    (h : m.is_wall x y = false) : m.is_path x y = true := by
  unfold Maze.is_wall at h
  unfold Maze.is_path
  by_cases hb : 0 ≤ x ∧ x < (m.width : Int) ∧ 0 ≤ y ∧ y < (m.height : Int)
  · rw [if_pos hb] at h ⊢
    rcases getCell_zero_or_one m hwf hb.1 hb.2.1 hb.2.2.1 hb.2.2.2 with h0 | h1
    · simp [h0]
    · simp [h1] at h
  · rw [if_neg hb] at h
    cases h

/-- On any maze, a path cell is never a wall cell. -/
theorem is_wall_false_of_is_path (m : Maze) (x y : Int)
    (h : m.is_path x y = true) : m.is_wall x y = false := by
  unfold Maze.is_path at h
  unfold Maze.is_wall
  by_cases hb : 0 ≤ x ∧ x < (m.width : Int) ∧ 0 ≤ y ∧ y < (m.height : Int)
  · rw [if_pos hb] at h ⊢
    have : m.getCell x y = 0 := by
      have := of_decide_eq_true (by simpa using h)
      omega
    simp [this]
  · rw [if_neg hb] at h
    cases h

/-- C10: on every maze satisfying the class invariant (which every
`Maze` instance the program constructs does), `is_wall` is the boolean
negation of `is_path` at every integer coordinate, in bounds or not. -/
theorem is_wall_eq_not_is_path (m : Maze) (hwf : m.wf) (x y : Int) :
    m.is_wall x y = !(m.is_path x y) := by
  cases hw : m.is_wall x y
  · rw [is_path_of_not_is_wall m hwf x y hw]; rfl
  · rw [is_path_false_of_is_wall m x y hw]; rfl

/-- Witness for C10 at a concrete well-formed maze and both an in-bounds
and an out-of-bounds coordinate. -/
theorem is_wall_eq_not_is_path_witness :
    allWall10.wf ∧
    allWall10.is_wall 0 0 = !(allWall10.is_path 0 0) ∧
    allWall10.is_wall (-3) 25 = !(allWall10.is_path (-3) 25) := by
  refine ⟨by decide, ?_, ?_⟩
  · exact is_wall_eq_not_is_path allWall10 (by decide) 0 0
  · exact is_wall_eq_not_is_path allWall10 (by decide) (-3) 25

/-- C5: `Enemy.hit` accepts exactly on a live enemy, then kills it, sets
the hit flag and records the timestamp; on an already-hit/dead enemy it
rejects with `False` and leaves the entire state unchanged (and, being a
total function, raises nothing). -/
theorem hit_accepts_alive_rejects_dead (e : Enemy) (now : Rat) :
    (e.is_alive = true →
      Enemy.hit e now =
        (true, { e with is_alive := false, is_hit := true, hit_start_time := now })) ∧
    (e.is_alive = false → Enemy.hit e now = (false, e)) := by
  constructor
  · intro h
    unfold Enemy.hit
    rw [h]
    rfl
  · intro h
    unfold Enemy.hit
    rw [h]
    rfl

/-- Witness for C5: accept on the live enemy, reject (unchanged) on the
resulting dead one. -/
theorem hit_accepts_alive_rejects_dead_witness :
    Enemy.hit sampleEnemy 7 =
      (true, { sampleEnemy with is_alive := false, is_hit := true, hit_start_time := 7 }) ∧
    Enemy.hit { sampleEnemy with is_alive := false, is_hit := true, hit_start_time := 7 } 9 =
      (false, { sampleEnemy with is_alive := false, is_hit := true, hit_start_time := 7 }) := by
  constructor
  · exact (hit_accepts_alive_rejects_dead sampleEnemy 7).1 rfl
  · exact (hit_accepts_alive_rejects_dead
      { sampleEnemy with is_alive := false, is_hit := true, hit_start_time := 7 } 9).2 rfl

/-- C3: whenever the start or the goal classifies as Wall (which includes
every out-of-bounds coordinate), all three strategies return the empty
path as an ordinary value — the shared validity guard fires before any
search state is built. -/
theorem wall_endpoints_give_empty_path (m : Maze) (s g : Pos)
    (h : m.is_wall s.1 s.2 = true ∨ m.is_wall g.1 g.2 = true) :
    AStarFindPath m s g = [] ∧ BFSFindPath m s g = [] ∧ DFSFindPath m s g = [] := by
  have hguard : (!(m.is_path s.1 s.2) || !(m.is_path g.1 g.2)) = true := by
    rcases h with h | h
    · rw [is_path_false_of_is_wall m _ _ h]; rfl
    · rw [is_path_false_of_is_wall m _ _ h]
      simp
  refine ⟨?_, ?_, ?_⟩
  · unfold AStarFindPath
    rw [if_pos hguard]
  · unfold BFSFindPath
    rw [if_pos hguard]
  · unfold DFSFindPath
    rw [if_pos hguard]

/-- Witness for C3, including the spec's literal fixture: a 10×10 grid
whose `(0,0)` cell is Wall returns `[]` from every strategy with
`start = (0,0)`, and an out-of-bounds goal also returns `[]`. -/
theorem wall_endpoints_give_empty_path_witness :
    allWall10.width = 10 ∧ allWall10.height = 10 ∧
    allWall10.is_wall 0 0 = true ∧
    (AStarFindPath allWall10 (0, 0) (5, 5) = [] ∧
     BFSFindPath allWall10 (0, 0) (5, 5) = [] ∧
     DFSFindPath allWall10 (0, 0) (5, 5) = []) ∧
    (AStarFindPath cexMaze (1, 1) (50, 3) = [] ∧
     BFSFindPath cexMaze (1, 1) (50, 3) = [] ∧
     DFSFindPath cexMaze (1, 1) (50, 3) = []) := by
  refine ⟨rfl, rfl, by decide, ?_, ?_⟩
  · exact wall_endpoints_give_empty_path allWall10 (0, 0) (5, 5) (Or.inl (by decide))
  · exact wall_endpoints_give_empty_path cexMaze (1, 1) (50, 3) (Or.inr (by decide))

/-- C1 counterexample: a concrete well-formed maze and two Path
endpoints on which `AStar.find_path` and `BFS.find_path` return paths of
different lengths (12 vs 10 coordinates), refuting the claimed equality
(and hence A*'s claimed optimality). -/
theorem astar_bfs_length_counterexample :
    cexMaze.wf = True ∧
    cexMaze.is_path 7 2 = true ∧ cexMaze.is_path 1 1 = true ∧
    (AStarFindPath cexMaze (7, 2) (1, 1)).length = 12 ∧
    (BFSFindPath cexMaze (7, 2) (1, 1)).length = 10 ∧
    (AStarFindPath cexMaze (7, 2) (1, 1)).length ≠
      (BFSFindPath cexMaze (7, 2) (1, 1)).length := by
  refine ⟨by simp [Maze.wf]; decide, by decide, by decide, by decide, by decide, by decide⟩

/-! ## Visibility (Camera) -/

/-- Membership in `pyRange`. -/
theorem mem_pyRange {a b z : Int} : z ∈ pyRange a b ↔ a ≤ z ∧ z < b := by
  unfold pyRange
  simp only [List.mem_map, List.mem_range]
  constructor
  · rintro ⟨i, hi, rfl⟩
    omega
  · intro h
    refine ⟨(z - a).toNat, by omega, by omega⟩

/-- One iteration of the inner visibility loop, as a membership fact. -/
theorem mem_visible_step (c : Camera) (x y dx d : Int) (acc : Finset Pos) (p : Pos) :
    (p ∈ if |dx| + |d| ≤ c.vision_range then
        if 0 ≤ x + dx ∧ x + dx < c.maze_width ∧
            0 ≤ y + d ∧ y + d < c.maze_height then
          insert (x + dx, y + d) acc
        else acc
      else acc) ↔
    p ∈ acc ∨ (|dx| + |d| ≤ c.vision_range ∧
      0 ≤ x + dx ∧ x + dx < c.maze_width ∧ 0 ≤ y + d ∧ y + d < c.maze_height ∧
      p = (x + dx, y + d)) := by
  by_cases h1 : |dx| + |d| ≤ c.vision_range
  · by_cases h2 : 0 ≤ x + dx ∧ x + dx < c.maze_width ∧ 0 ≤ y + d ∧ y + d < c.maze_height
    · rw [if_pos h1, if_pos h2, Finset.mem_insert]
      constructor
      · rintro (rfl | hacc)
        · exact Or.inr ⟨h1, h2.1, h2.2.1, h2.2.2.1, h2.2.2.2, rfl⟩
        · exact Or.inl hacc
      · rintro (hacc | ⟨_, _, _, _, _, rfl⟩)
        · exact Or.inr hacc
        · exact Or.inl rfl
    · rw [if_pos h1, if_neg h2]
      constructor
      · exact Or.inl
      · rintro (hacc | ⟨_, hb1, hb2, hb3, hb4, rfl⟩)
        · exact hacc
        · exact absurd ⟨hb1, hb2, hb3, hb4⟩ h2
  · rw [if_neg h1]
    constructor
    · exact Or.inl
    · rintro (hacc | ⟨hd, _⟩)
      · exact hacc
      · exact absurd hd h1

/-- Membership in the inner (`dy`) loop of `get_visible_tiles`. -/
theorem mem_visible_inner (c : Camera) (x y dx : Int) (l : List Int)
    (acc : Finset Pos) (p : Pos) :
    p ∈ l.foldl (fun acc2 dy =>
      if |dx| + |dy| ≤ c.vision_range then
        if 0 ≤ x + dx ∧ x + dx < c.maze_width ∧
            0 ≤ y + dy ∧ y + dy < c.maze_height then
          insert (x + dx, y + dy) acc2
        else acc2
      else acc2) acc ↔
    p ∈ acc ∨ ∃ dy ∈ l, |dx| + |dy| ≤ c.vision_range ∧
      0 ≤ x + dx ∧ x + dx < c.maze_width ∧ 0 ≤ y + dy ∧ y + dy < c.maze_height ∧
      p = (x + dx, y + dy) := by
  induction l generalizing acc with
  | nil => simp
  | cons d rest ih =>
    rw [List.foldl_cons, ih, mem_visible_step]
    simp only [List.mem_cons]
    constructor
    · rintro ((hacc | hstep) | ⟨dy, hdy, hrest⟩)
      · exact Or.inl hacc
      · exact Or.inr ⟨d, Or.inl rfl, hstep⟩
      · exact Or.inr ⟨dy, Or.inr hdy, hrest⟩
    · rintro (hacc | ⟨dy, (rfl | hdy), hrest⟩)
      · exact Or.inl (Or.inl hacc)
      · exact Or.inl (Or.inr hrest)
      · exact Or.inr ⟨dy, hdy, hrest⟩

/-- Membership characterization of `Camera.get_visible_tiles`: exactly
the in-bounds coordinates within Manhattan distance `vision_range` of
the viewer.  (When `vision_range < 0` both sides are empty.) -/
theorem mem_get_visible_tiles (c : Camera) (x y : Int) (p : Pos) :
    p ∈ c.get_visible_tiles x y ↔
      0 ≤ p.1 ∧ p.1 < c.maze_width ∧ 0 ≤ p.2 ∧ p.2 < c.maze_height ∧
      |p.1 - x| + |p.2 - y| ≤ c.vision_range := by
  unfold Camera.get_visible_tiles
  have houter : ∀ (l : List Int) (acc : Finset Pos),
      p ∈ l.foldl (fun acc dx =>
        (pyRange (-c.vision_range) (c.vision_range + 1)).foldl (fun acc2 dy =>
          if |dx| + |dy| ≤ c.vision_range then
            if 0 ≤ x + dx ∧ x + dx < c.maze_width ∧
                0 ≤ y + dy ∧ y + dy < c.maze_height then
              insert (x + dx, y + dy) acc2
            else acc2
          else acc2) acc) acc ↔
      p ∈ acc ∨ ∃ dx ∈ l, ∃ dy ∈ pyRange (-c.vision_range) (c.vision_range + 1),
        |dx| + |dy| ≤ c.vision_range ∧
        0 ≤ x + dx ∧ x + dx < c.maze_width ∧ 0 ≤ y + dy ∧ y + dy < c.maze_height ∧
        p = (x + dx, y + dy) := by
    intro l
    induction l with
    | nil => simp
    | cons d rest ih =>
      intro acc
      rw [List.foldl_cons, ih, mem_visible_inner]
      simp only [List.mem_cons]
      constructor
      · rintro ((hacc | ⟨dy, hdy, hrest⟩) | ⟨dx, hdx, hex⟩)
        · exact Or.inl hacc
        · exact Or.inr ⟨d, Or.inl rfl, dy, hdy, hrest⟩
        · exact Or.inr ⟨dx, Or.inr hdx, hex⟩
      · rintro (hacc | ⟨dx, (rfl | hdx), hex⟩)
        · exact Or.inl (Or.inl hacc)
        · exact Or.inl (Or.inr hex)
        · exact Or.inr ⟨dx, hdx, hex⟩
  rw [houter]
  simp only [Finset.not_mem_empty, false_or]
  constructor
  · rintro ⟨dx, hdx, dy, hdy, hle, hb1, hb2, hb3, hb4, rfl⟩
    refine ⟨hb1, hb2, hb3, hb4, ?_⟩
    have e1 : x + dx - x = dx := by ring
    have e2 : y + dy - y = dy := by ring
    rw [e1, e2]
    exact hle
  · rintro ⟨hb1, hb2, hb3, hb4, hle⟩
    have hx := abs_nonneg (p.1 - x)
    have hy := abs_nonneg (p.2 - y)
    have hx1 := le_abs_self (p.1 - x)
    have hx2 := neg_abs_le (p.1 - x)
    have hy1 := le_abs_self (p.2 - y)
    have hy2 := neg_abs_le (p.2 - y)
    refine ⟨p.1 - x, ?_, p.2 - y, ?_, ?_, by omega, by omega, by omega, by omega, by simp⟩
    · rw [mem_pyRange]
      omega
    · rw [mem_pyRange]
      omega
    · have e1 : x + (p.1 - x) = p.1 := by ring
      have e2 : y + (p.2 - y) = p.2 := by ring
      calc |p.1 - x| + |p.2 - y| ≤ c.vision_range := hle

/-- The 13 coordinates of the radius-2 Manhattan diamond around `(5,5)`. -/
def diamond13 : List Pos :=
  [(5, 3), (4, 4), (5, 4), (6, 4), (3, 5), (4, 5), (5, 5), (6, 5), (7, 5),
   (4, 6), (5, 6), (6, 6), (5, 7)]

/-- C4: `get_visible_tiles` returns exactly the in-bounds part of the
Manhattan diamond of radius `vision_range` around the viewer; with range
2 at `(5,5)` on a grid whose interior contains the whole diamond it
returns exactly 13 coordinates, and at a boundary viewer it returns only
the in-bounds subset (the characterization specializes to both literal
cases). -/
theorem get_visible_tiles_exact (c : Camera) (hr : 0 ≤ c.vision_range) (x y : Int) :
    (∀ p : Pos, p ∈ c.get_visible_tiles x y ↔
      0 ≤ p.1 ∧ p.1 < c.maze_width ∧ 0 ≤ p.2 ∧ p.2 < c.maze_height ∧
      |p.1 - x| + |p.2 - y| ≤ c.vision_range) ∧
    (c.vision_range = 2 → 7 < c.maze_width → 7 < c.maze_height →
      (c.get_visible_tiles 5 5).card = 13) := by
  constructor
  · intro p
    exact mem_get_visible_tiles c x y p
  · intro h2 hw hh
    have hset : c.get_visible_tiles 5 5 = diamond13.toFinset := by
      apply Finset.Subset.antisymm
      · intro p hp
        rw [mem_get_visible_tiles, h2] at hp
        obtain ⟨a, b⟩ := p
        dsimp only at hp
        obtain ⟨ha0, haw, hb0, hbh, hman⟩ := hp
        have hna : |a - 5| ≤ 2 := by
          have := abs_nonneg (b - 5)
          omega
        have hnb : |b - 5| ≤ 2 := by
          have := abs_nonneg (a - 5)
          omega
        have ha' := abs_le.mp hna
        have hb' := abs_le.mp hnb
        have ha1 : 3 ≤ a := by omega
        have ha2 : a ≤ 7 := by omega
        have hb1 : 3 ≤ b := by omega
        have hb2 : b ≤ 7 := by omega
        rw [List.mem_toFinset]
        interval_cases a <;> interval_cases b <;> revert hman <;> decide
      · intro p hp
        rw [mem_get_visible_tiles, h2]
        fin_cases hp <;>
          exact ⟨by decide, by omega, by decide, by omega, by decide⟩
    rw [hset]
    decide
/-- Witness for C4 at the concrete camera `⟨2, 20, 20⟩`. -/
theorem get_visible_tiles_exact_witness :
    ((0 : Int) ≤ (2 : Int)) ∧
    ((Camera.mk 2 20 20).get_visible_tiles 5 5).card = 13 ∧
    ((0, 0) ∈ (Camera.mk 2 20 20).get_visible_tiles 0 1 ↔
      0 ≤ (0 : Int) ∧ (0 : Int) < 20 ∧ 0 ≤ (0 : Int) ∧ (0 : Int) < 20 ∧
      |(0 : Int) - 0| + |(0 : Int) - 1| ≤ 2) := by
  refine ⟨by decide, ?_, ?_⟩
  · exact (get_visible_tiles_exact (Camera.mk 2 20 20) (by decide) 0 0).2 rfl
      (by decide) (by decide)
  · exact (get_visible_tiles_exact (Camera.mk 2 20 20) (by decide) 0 1).1 (0, 0)

/-- C9: visibility is symmetric — for in-bounds coordinates `a` and `b`
and any camera with nonnegative range, `b` is visible from `a` iff `a`
is visible from `b`. -/
theorem visibility_symmetric (c : Camera) (hr : 0 ≤ c.vision_range) (a b : Pos)
    (ha : 0 ≤ a.1 ∧ a.1 < c.maze_width ∧ 0 ≤ a.2 ∧ a.2 < c.maze_height)
    (hb : 0 ≤ b.1 ∧ b.1 < c.maze_width ∧ 0 ≤ b.2 ∧ b.2 < c.maze_height) :
    (b ∈ c.get_visible_tiles a.1 a.2 ↔ a ∈ c.get_visible_tiles b.1 b.2) := by
  rw [mem_get_visible_tiles, mem_get_visible_tiles]
  have e1 : |a.1 - b.1| = |b.1 - a.1| := abs_sub_comm _ _
  have e2 : |a.2 - b.2| = |b.2 - a.2| := abs_sub_comm _ _
  constructor
  · rintro ⟨_, _, _, _, hm⟩
    exact ⟨ha.1, ha.2.1, ha.2.2.1, ha.2.2.2, by rw [e1, e2]; exact hm⟩
  · rintro ⟨_, _, _, _, hm⟩
    exact ⟨hb.1, hb.2.1, hb.2.2.1, hb.2.2.2, by rw [← e1, ← e2]; exact hm⟩

/-- Witness for C9 at a concrete camera and pair of coordinates. -/
theorem visibility_symmetric_witness :
    ((2, 3) ∈ (Camera.mk 4 10 10).get_visible_tiles 1 1 ↔
      (1, 1) ∈ (Camera.mk 4 10 10).get_visible_tiles 2 3) := by
  exact visibility_symmetric (Camera.mk 4 10 10) (by decide) (1, 1) (2, 3)
    (by refine ⟨by decide, by decide, by decide, by decide⟩)
    (by refine ⟨by decide, by decide, by decide, by decide⟩)

/-! ## Maze generator: grid write lemmas and the border invariant -/

/-- `List.set` seen through `List.getD`. -/
theorem getD_set {α : Type} (l : List α) (i j : Nat) (a d : α) :
    (l.set i a).getD j d = if j = i ∧ i < l.length then a else l.getD j d := by
  by_cases hij : j = i
  · subst hij
    by_cases hlen : j < l.length
    · rw [List.getD_eq_getElem?_getD, List.getElem?_set_self hlen]
      simp [hlen]
    · rw [List.set_eq_of_length_le (by omega)]
      simp [hlen]
  · rw [List.getD_eq_getElem?_getD, List.getElem?_set_ne (fun h => hij h.symm),
      ← List.getD_eq_getElem?_getD]
    simp [hij]

/-- Reading back the cell just written by `setCell`. -/
theorem gridGet_setCell_self (w h : Nat) (g : List (List Nat)) (hd : GridDims w h g)
    (x y : Int) (v : Nat) (hx : 0 ≤ x) (hxw : x < (w : Int)) (hy : 0 ≤ y)
    (hyh : y < (h : Int)) : gridGet (setCell g x y v) x y = v := by
  obtain ⟨hlen, hrow⟩ := hd
  have hylt : y.toNat < g.length := by omega
  have hrowmem : g.getD y.toNat [] ∈ g := getD_mem_of_lt _ _ _ hylt
  have hxlt : x.toNat < (g.getD y.toNat []).length := by rw [hrow _ hrowmem]; omega
  unfold gridGet setCell
  rw [getD_set, if_pos ⟨rfl, hylt⟩, getD_set, if_pos ⟨rfl, hxlt⟩]

/-- Reading a different cell after `setCell` (all coordinates
nonnegative, as everywhere in the generator). -/
theorem gridGet_setCell_ne (g : List (List Nat)) (x y : Int) (v : Nat) (a b : Int)
    (hx : 0 ≤ x) (hy : 0 ≤ y) (ha : 0 ≤ a) (hb : 0 ≤ b)
    (hne : a ≠ x ∨ b ≠ y) : gridGet (setCell g x y v) a b = gridGet g a b := by
  unfold gridGet setCell
  rcases hne with hne | hne
  · have : a.toNat ≠ x.toNat := by omega
    by_cases hyy : b.toNat = y.toNat
    · rw [getD_set]
      by_cases hylen : y.toNat < g.length
      · rw [if_pos ⟨hyy, hylen⟩, getD_set, if_neg (by tauto), hyy]
      · rw [if_neg (by tauto)]
    · rw [getD_set, if_neg (by tauto)]
  · have hne' : b.toNat ≠ y.toNat := by omega
    rw [getD_set, if_neg (by tauto)]

/-- `setCell` preserves the grid dimensions. -/
theorem gridDims_setCell (w h : Nat) (g : List (List Nat)) (hd : GridDims w h g)
    (x y : Int) (v : Nat) : GridDims w h (setCell g x y v) := by
  obtain ⟨hlen, hrow⟩ := hd
  constructor
  · unfold setCell
    rw [List.length_set]
    exact hlen
  · intro row hmem
    unfold setCell at hmem
    by_cases hylen : y.toNat < g.length
    · rcases List.mem_or_eq_of_mem_set hmem with hmem | rfl
      · exact hrow _ hmem
      · rw [List.length_set]
        exact hrow _ (getD_mem_of_lt _ _ _ hylen)
    · rw [List.set_eq_of_length_le (by omega)] at hmem
      exact hrow _ hmem

/-- What a successful direction probe of the generation loop yields:
the chosen direction is one of the shuffled candidates, the target cell
is strictly interior and was an unvisited wall, and the grid update
carves exactly the intervening cell and the target. -/
theorem genTry_some (w h : Nat) (x y : Int) (grid : List (List Nat)) :
    ∀ (dirs : List Pos) (np : Pos) (grid' : List (List Nat)),
    genTry w h x y grid dirs = some (np, grid') →
    ∃ dx dy : Int, (dx, dy) ∈ dirs ∧ np = (x + dx, y + dy) ∧
      0 < x + dx ∧ x + dx < (w : Int) - 1 ∧ 0 < y + dy ∧ y + dy < (h : Int) - 1 ∧
      gridGet grid (x + dx) (y + dy) = 1 ∧
      grid' = setCell (setCell grid (x + dx / 2) (y + dy / 2) 0) (x + dx) (y + dy) 0 := by
  intro dirs
  induction dirs with
  | nil => intro np grid' hcontra; cases hcontra
  | cons d rest ih =>
    intro np grid' hsome
    obtain ⟨dx, dy⟩ := d
    unfold genTry at hsome
    by_cases hb : 0 < x + dx ∧ x + dx < (w : Int) - 1 ∧ 0 < y + dy ∧ y + dy < (h : Int) - 1
    · rw [if_pos hb] at hsome
      by_cases hwall : gridGet grid (x + dx) (y + dy) == 1
      · rw [if_pos hwall] at hsome
        obtain ⟨rfl, rfl⟩ : np = (x + dx, y + dy) ∧
            grid' = setCell (setCell grid (x + dx / 2) (y + dy / 2) 0) (x + dx) (y + dy) 0 := by
          cases hsome
          exact ⟨rfl, rfl⟩
        exact ⟨dx, dy, List.mem_cons_self _ _, rfl, hb.1, hb.2.1, hb.2.2.1, hb.2.2.2,
          of_decide_eq_true hwall, rfl⟩
      · rw [if_neg hwall] at hsome
        obtain ⟨dx', dy', hmem, rest'⟩ := ih np grid' hsome
        exact ⟨dx', dy', List.mem_cons_of_mem _ hmem, rest'⟩
    · rw [if_neg hb] at hsome
      obtain ⟨dx', dy', hmem, rest'⟩ := ih np grid' hsome
      exact ⟨dx', dy', List.mem_cons_of_mem _ hmem, rest'⟩

/-- Case analysis on the four carving directions. -/
theorem mem_baseDirections {dx dy : Int} (h : ((dx, dy) : Pos) ∈ baseDirections) :
    (dx = 0 ∧ dy = -2) ∨ (dx = 2 ∧ dy = 0) ∨ (dx = 0 ∧ dy = 2) ∨ (dx = -2 ∧ dy = 0) := by
  simpa [baseDirections, Prod.ext_iff] using h

/-- The generation loop preserves grid dimensions and the all-wall
border, given that every stack entry is strictly interior. -/
theorem genLoop_border (w h : Nat) (perms : Nat → List Pos)
    (hperm : ∀ k, ∀ d ∈ perms k, d ∈ baseDirections) :
    ∀ (fuel k : Nat) (grid : List (List Nat)) (stack : List Pos),
      GridDims w h grid → BorderWalls w h grid →
      (∀ p ∈ stack, InteriorPos w h p) →
      BorderWalls w h (genLoop w h perms k fuel grid stack) := by
  intro fuel
  induction fuel with
  | zero =>
    intro k grid stack hd hb hs
    exact hb
  | succ fuel ih =>
    intro k grid stack hd hb hs
    cases stack with
    | nil => exact hb
    | cons p rest =>
      obtain ⟨x, y⟩ := p
      cases htry : genTry w h x y grid (perms k) with
      | none =>
        simp only [genLoop, htry]
        exact ih (k + 1) grid rest hd hb (fun q hq => hs q (List.mem_cons_of_mem _ hq))
      | some res =>
        obtain ⟨np, grid'⟩ := res
        simp only [genLoop, htry]
        obtain ⟨dx, dy, hmemd, hnp, h1, h2, h3, h4, hwall, hgrid'⟩ :=
          genTry_some w h x y grid (perms k) np grid' htry
        have htop' : 0 < x ∧ x < (w : Int) - 1 ∧ 0 < y ∧ y < (h : Int) - 1 :=
          hs _ (List.mem_cons_self _ _)
        have e0 : (0 : Int) / 2 = 0 := by decide
        have e2 : (2 : Int) / 2 = 1 := by decide
        have em2 : (-2 : Int) / 2 = -1 := by decide
        have hmid : 0 < x + dx / 2 ∧ x + dx / 2 < (w : Int) - 1 ∧
            0 < y + dy / 2 ∧ y + dy / 2 < (h : Int) - 1 := by
          rcases mem_baseDirections (hperm k _ hmemd) with ⟨rfl, rfl⟩ | ⟨rfl, rfl⟩ |
            ⟨rfl, rfl⟩ | ⟨rfl, rfl⟩ <;> simp only [e0, e2, em2] <;> omega
        obtain ⟨hm1, hm2, hm3, hm4⟩ := hmid
        have hd' : GridDims w h grid' := by
          rw [hgrid']
          exact gridDims_setCell _ _ _ (gridDims_setCell _ _ _ hd _ _ _) _ _ _
        have hb' : BorderWalls w h grid' := by
          intro a b ha0 haw hb0 hbh hedge
          rw [hgrid', gridGet_setCell_ne _ _ _ _ _ _ (by omega) (by omega) ha0 hb0
              (by omega),
            gridGet_setCell_ne _ _ _ _ _ _ (by omega) (by omega) ha0 hb0 (by omega)]
          exact hb a b ha0 haw hb0 hbh hedge
        refine ih (k + 1) grid' (np :: (x, y) :: rest) hd' hb' ?_
        intro q hq
        rcases List.mem_cons.mp hq with rfl | hq
        · rw [hnp]
          exact ⟨h1, h2, h3, h4⟩
        · exact hs q hq

/-- Reading a replicated list. -/
theorem getD_replicate {α : Type} (n : Nat) (v d : α) (i : Nat) (h : i < n) :
    (List.replicate n v).getD i d = v := by
  rw [List.getD_eq_getElem?_getD, List.getElem?_replicate, if_pos h]
  rfl

/-- C8 (amended): for dimensions of at least 3×3 (so that the start cell
`(1,1)` is strictly interior), every outer-border cell of a generated
maze classifies as Wall, for every stream of shuffled direction lists:
the loop's strict-interior bound check keeps every write interior. -/
theorem generate_maze_border_walls (w h : Nat) (perms : Nat → List Pos)
    (hw : 3 ≤ w) (hh : 3 ≤ h)
    (hperm : ∀ k, ∀ d ∈ perms k, d ∈ baseDirections) (x y : Int)
    (hx0 : 0 ≤ x) (hxw : x < (w : Int)) (hy0 : 0 ≤ y) (hyh : y < (h : Int))
    (hedge : x = 0 ∨ x = (w : Int) - 1 ∨ y = 0 ∨ y = (h : Int) - 1) :
    (generateMaze w h perms).is_wall x y = true := by
  have hd0 : GridDims w h (List.replicate h (List.replicate w 1)) := by
    constructor
    · exact List.length_replicate _ _
    · intro row hrow
      rw [List.eq_of_mem_replicate hrow]
      exact List.length_replicate _ _
  have hb0 : BorderWalls w h (List.replicate h (List.replicate w 1)) := by
    intro a b ha0 haw hb0' hbh _
    unfold gridGet
    rw [getD_replicate _ _ _ _ (by omega), getD_replicate _ _ _ _ (by omega)]
  have hd1 : GridDims w h (setCell (List.replicate h (List.replicate w 1)) 1 1 0) :=
    gridDims_setCell _ _ _ hd0 _ _ _
  have hb1 : BorderWalls w h (setCell (List.replicate h (List.replicate w 1)) 1 1 0) := by
    intro a b ha0 haw hb0' hbh hedge'
    rw [gridGet_setCell_ne _ _ _ _ _ _ (by omega) (by omega) ha0 hb0' (by omega)]
    exact hb0 a b ha0 haw hb0' hbh hedge'
  have hres := genLoop_border w h perms hperm (2 * w * h + 2) 0 _ [(1, 1)] hd1 hb1
    (by
      intro p hp
      rw [List.mem_singleton] at hp
      subst hp
      exact ⟨by omega, by omega, by omega, by omega⟩)
  have hcell := hres x y hx0 hxw hy0 hyh hedge
  unfold Maze.is_wall
  rw [if_pos ⟨hx0, hxw, hy0, hyh⟩]
  have : (generateMaze w h perms).getCell x y = 1 := hcell
  rw [this]
  rfl

/-- C8 counterexample: `Maze.generate_maze` on a 2×2 grid carves the
start cell `(1,1)`, which lies on the outer border (`x = width-1`,
`y = height-1`), so the claim over *every* produced maze fails. -/
theorem generate_maze_border_counterexample :
    (generateMaze 2 2 (fun _ => baseDirections)).width = 2 ∧
    (generateMaze 2 2 (fun _ => baseDirections)).height = 2 ∧
    (generateMaze 2 2 (fun _ => baseDirections)).is_wall 1 1 = false := by
  exact ⟨rfl, rfl, by decide⟩

/-- Witness for the amended C8 at a concrete 5×5 generation run and a
concrete border cell. -/
theorem generate_maze_border_walls_witness :
    (generateMaze 5 5 (fun _ => baseDirections)).is_wall 4 2 = true := by
  exact generate_maze_border_walls 5 5 (fun _ => baseDirections) (by omega) (by omega)
    (fun _ d hd => hd) 4 2 (by omega) (by omega) (by omega) (by omega) (by omega)

/-! ## Maze generator: connectivity (C2) -/

/-- A carve at a base direction steps through its midpoint: both the
midpoint from the stack top and the target from the midpoint are
4-neighbour moves. -/
theorem carve_steps (x y dx dy : Int) (h : ((dx, dy) : Pos) ∈ baseDirections) :
    (x + dx / 2, y + dy / 2) ∈ pyNeighbors (x, y) ∧
    (x + dx, y + dy) ∈ pyNeighbors (x + dx / 2, y + dy / 2) := by
  have e0 : (0 : Int) / 2 = 0 := by decide
  have e2 : (2 : Int) / 2 = 1 := by decide
  have em2 : (-2 : Int) / 2 = -1 := by decide
  rcases mem_baseDirections h with ⟨rfl, rfl⟩ | ⟨rfl, rfl⟩ | ⟨rfl, rfl⟩ | ⟨rfl, rfl⟩ <;>
    simp only [e0, e2, em2] <;> constructor <;> simp [pyNeighbors, Prod.ext_iff] <;> omega

/-- A path query succeeding implies the coordinate is in bounds. -/
theorem is_path_bounds (m : Maze) (x y : Int) (h : m.is_path x y = true) :
    0 ≤ x ∧ x < (m.width : Int) ∧ 0 ≤ y ∧ y < (m.height : Int) := by
  unfold Maze.is_path at h
  by_cases hb : 0 ≤ x ∧ x < (m.width : Int) ∧ 0 ≤ y ∧ y < (m.height : Int)
  · exact hb
  · rw [if_neg hb] at h
    cases h

/-- Carving (writing `0`) never destroys path cells. -/
theorem is_path_setCell0 (w h : Nat) (g : List (List Nat)) (hd : GridDims w h g)
    (a b : Int) (ha : 0 ≤ a) (hb : 0 ≤ b) (p : Pos)
    (hp : (Maze.mk w h g).is_path p.1 p.2 = true) :
    (Maze.mk w h (setCell g a b 0)).is_path p.1 p.2 = true := by
  unfold Maze.is_path at hp ⊢
  by_cases hbnd : 0 ≤ p.1 ∧ p.1 < ((Maze.mk w h g).width : Int) ∧
      0 ≤ p.2 ∧ p.2 < ((Maze.mk w h g).height : Int)
  · rw [if_pos hbnd] at hp
    rw [if_pos hbnd]
    by_cases hpe : p.1 = a ∧ p.2 = b
    · have : (Maze.mk w h (setCell g a b 0)).getCell p.1 p.2 = 0 := by
        show gridGet (setCell g a b 0) p.1 p.2 = 0
        rw [hpe.1, hpe.2]
        exact gridGet_setCell_self w h g hd a b 0 ha (by
          have := hbnd.2.1
          rw [hpe.1] at this
          exact this) hb (by
          have := hbnd.2.2.2
          rw [hpe.2] at this
          exact this)
      rw [this]
      rfl
    · have : (Maze.mk w h (setCell g a b 0)).getCell p.1 p.2 = (Maze.mk w h g).getCell p.1 p.2 := by
        show gridGet (setCell g a b 0) p.1 p.2 = gridGet g p.1 p.2
        refine gridGet_setCell_ne g a b 0 p.1 p.2 ha hb hbnd.1 hbnd.2.2.1 ?_
        by_cases h1 : p.1 = a
        · exact Or.inr (fun h2 => hpe ⟨h1, h2⟩)
        · exact Or.inl h1
      rw [this]
      exact hp
  · rw [if_neg hbnd] at hp
    cases hp

/-- Reachability is monotone under carving. -/
theorem reach_mono (m m' : Maze)
    (hmono : ∀ p : Pos, m.is_path p.1 p.2 = true → m'.is_path p.1 p.2 = true)
    (a b : Pos) (h : Reach m a b) : Reach m' a b := by
  exact Relation.ReflTransGen.mono (fun u v huv => ⟨huv.1, hmono v huv.2⟩) h

/-- The generation loop preserves connectivity-to-start of all path
cells (together with the facts it needs: grid dimensions and that every
stack entry is a path cell). -/
theorem genLoop_conn (w h : Nat) (perms : Nat → List Pos)
    (hperm : ∀ k, ∀ d ∈ perms k, d ∈ baseDirections) :
    ∀ (fuel k : Nat) (grid : List (List Nat)) (stack : List Pos),
      GridDims w h grid →
      (∀ p ∈ stack, (Maze.mk w h grid).is_path p.1 p.2 = true) →
      (∀ p : Pos, (Maze.mk w h grid).is_path p.1 p.2 = true →
        Reach (Maze.mk w h grid) (1, 1) p) →
      ∀ p : Pos,
        (Maze.mk w h (genLoop w h perms k fuel grid stack)).is_path p.1 p.2 = true →
        Reach (Maze.mk w h (genLoop w h perms k fuel grid stack)) (1, 1) p := by
  intro fuel
  induction fuel with
  | zero =>
    intro k grid stack _ _ hconn
    exact hconn
  | succ fuel ih =>
    intro k grid stack hd hstack hconn
    cases stack with
    | nil => exact hconn
    | cons top rest =>
      obtain ⟨x, y⟩ := top
      cases htry : genTry w h x y grid (perms k) with
      | none =>
        simp only [genLoop, htry]
        exact ih (k + 1) grid rest hd
          (fun q hq => hstack q (List.mem_cons_of_mem _ hq)) hconn
      | some res =>
        obtain ⟨np, grid'⟩ := res
        simp only [genLoop, htry]
        obtain ⟨dx, dy, hmemd, hnp, h1, h2, h3, h4, hwall, hgrid'⟩ :=
          genTry_some w h x y grid (perms k) np grid' htry
        have e0 : (0 : Int) / 2 = 0 := by decide
        have e2 : (2 : Int) / 2 = 1 := by decide
        have em2 : (-2 : Int) / 2 = -1 := by decide
        have hdcases := mem_baseDirections (hperm k _ hmemd)
        -- the carved midpoint and target as concrete coordinates
        have hmne : x + dx ≠ x + dx / 2 ∨ y + dy ≠ y + dy / 2 := by
          rcases hdcases with ⟨rfl, rfl⟩ | ⟨rfl, rfl⟩ | ⟨rfl, rfl⟩ | ⟨rfl, rfl⟩ <;>
            simp only [e0, e2, em2] <;> omega
        have hdmid : GridDims w h (setCell grid (x + dx / 2) (y + dy / 2) 0) :=
          gridDims_setCell _ _ _ hd _ _ _
        have hd' : GridDims w h grid' := by
          rw [hgrid']
          exact gridDims_setCell _ _ _ hdmid _ _ _
        have hmid0 : 0 ≤ x + dx / 2 ∧ 0 ≤ y + dy / 2 ∧
            x + dx / 2 < (w : Int) ∧ y + dy / 2 < (h : Int) := by
          have htop' := is_path_bounds _ _ _ (hstack _ (List.mem_cons_self _ _))
          simp only [show (Maze.mk w h grid).width = w from rfl,
            show (Maze.mk w h grid).height = h from rfl] at htop'
          rcases hdcases with ⟨rfl, rfl⟩ | ⟨rfl, rfl⟩ | ⟨rfl, rfl⟩ | ⟨rfl, rfl⟩ <;>
            simp only [e0, e2, em2] <;> omega
        -- the midpoint is a path cell of grid'
        have hmidpath : (Maze.mk w h grid').is_path (x + dx / 2) (y + dy / 2) = true := by
          unfold Maze.is_path
          rw [if_pos ⟨hmid0.1, hmid0.2.2.1, hmid0.2.1, hmid0.2.2.2⟩]
          have : gridGet grid' (x + dx / 2) (y + dy / 2) = 0 := by
            rw [hgrid',
              gridGet_setCell_ne _ _ _ _ _ _ (by omega) (by omega) hmid0.1 hmid0.2.1
                (by rcases hmne with hm | hm
                    · exact Or.inl (fun hcon => hm hcon.symm)
                    · exact Or.inr (fun hcon => hm hcon.symm)),
              gridGet_setCell_self w h grid hd _ _ 0 hmid0.1 hmid0.2.2.1 hmid0.2.1
                hmid0.2.2.2]
          rw [show (Maze.mk w h grid').getCell (x + dx / 2) (y + dy / 2) =
            gridGet grid' (x + dx / 2) (y + dy / 2) from rfl, this]
          rfl
        -- the target is a path cell of grid'
        have htgtpath : (Maze.mk w h grid').is_path (x + dx) (y + dy) = true := by
          unfold Maze.is_path
          dsimp only
          rw [if_pos (show 0 ≤ x + dx ∧ x + dx < (w : Int) ∧ 0 ≤ y + dy ∧
            y + dy < (h : Int) from ⟨by omega, by omega, by omega, by omega⟩)]
          have : gridGet grid' (x + dx) (y + dy) = 0 := by
            rw [hgrid', gridGet_setCell_self w h _ hdmid _ _ 0 (by omega) (by omega)
              (by omega) (by omega)]
          rw [show (Maze.mk w h grid').getCell (x + dx) (y + dy) =
            gridGet grid' (x + dx) (y + dy) from rfl, this]
          rfl
        -- carving preserves path cells
        have hmono : ∀ p : Pos, (Maze.mk w h grid).is_path p.1 p.2 = true →
            (Maze.mk w h grid').is_path p.1 p.2 = true := by
          intro p hp
          rw [hgrid']
          exact is_path_setCell0 w h _ hdmid _ _ (by omega) (by omega) p
            (is_path_setCell0 w h grid hd _ _ hmid0.1 hmid0.2.1 p hp)
        -- neighbour steps top → mid → target
        have hstep1 : StepTo (Maze.mk w h grid') (x, y) (x + dx / 2, y + dy / 2) :=
          ⟨(carve_steps x y dx dy (hperm k _ hmemd)).1, hmidpath⟩
        have hstep2 : StepTo (Maze.mk w h grid') (x + dx / 2, y + dy / 2)
            (x + dx, y + dy) :=
          ⟨(carve_steps x y dx dy (hperm k _ hmemd)).2, htgtpath⟩
        -- reach of the target in grid'
        have hreachtop : Reach (Maze.mk w h grid') (1, 1) (x, y) :=
          reach_mono _ _ hmono _ _ (hconn _ (hstack _ (List.mem_cons_self _ _)))
        have hreachmid : Reach (Maze.mk w h grid') (1, 1) (x + dx / 2, y + dy / 2) :=
          Relation.ReflTransGen.tail hreachtop hstep1
        have hreachtgt : Reach (Maze.mk w h grid') (1, 1) (x + dx, y + dy) :=
          Relation.ReflTransGen.tail hreachmid hstep2
        -- the new connectivity invariant
        have hconn' : ∀ p : Pos, (Maze.mk w h grid').is_path p.1 p.2 = true →
            Reach (Maze.mk w h grid') (1, 1) p := by
          intro p hp
          by_cases hold : (Maze.mk w h grid).is_path p.1 p.2 = true
          · exact reach_mono _ _ hmono _ _ (hconn p hold)
          · -- p must be one of the two carved cells
            have hbnd : 0 ≤ p.1 ∧ p.1 < (w : Int) ∧ 0 ≤ p.2 ∧ p.2 < (h : Int) := by
              unfold Maze.is_path at hp
              by_cases hb : 0 ≤ p.1 ∧ p.1 < ((Maze.mk w h grid').width : Int) ∧
                  0 ≤ p.2 ∧ p.2 < ((Maze.mk w h grid').height : Int)
              · exact ⟨hb.1, hb.2.1, hb.2.2.1, hb.2.2.2⟩
              · rw [if_neg hb] at hp
                cases hp
            by_cases he1 : p.1 = x + dx ∧ p.2 = y + dy
            · have : p = (x + dx, y + dy) := Prod.ext he1.1 he1.2
              rw [this]
              exact hreachtgt
            · by_cases he2 : p.1 = x + dx / 2 ∧ p.2 = y + dy / 2
              · have : p = (x + dx / 2, y + dy / 2) := Prod.ext he2.1 he2.2
                rw [this]
                exact hreachmid
              · exfalso
                apply hold
                unfold Maze.is_path at hp ⊢
                rw [if_pos ⟨hbnd.1, hbnd.2.1, hbnd.2.2.1, hbnd.2.2.2⟩] at hp ⊢
                have : (Maze.mk w h grid').getCell p.1 p.2 =
                    (Maze.mk w h grid).getCell p.1 p.2 := by
                  show gridGet grid' p.1 p.2 = gridGet grid p.1 p.2
                  rw [hgrid',
                    gridGet_setCell_ne _ _ _ _ _ _ (by omega) (by omega) hbnd.1 hbnd.2.2.1
                      (by by_cases hq : p.1 = x + dx
                          · exact Or.inr (fun hcon => he1 ⟨hq, hcon⟩)
                          · exact Or.inl hq),
                    gridGet_setCell_ne _ _ _ _ _ _ hmid0.1 hmid0.2.1 hbnd.1 hbnd.2.2.1
                      (by by_cases hq : p.1 = x + dx / 2
                          · exact Or.inr (fun hcon => he2 ⟨hq, hcon⟩)
                          · exact Or.inl hq)]
                rw [← this]
                exact hp
        refine ih (k + 1) grid' (np :: (x, y) :: rest) hd' ?_ hconn'
        intro q hq
        rcases List.mem_cons.mp hq with rfl | hq
        · rw [hnp]
          exact htgtpath
        · rcases List.mem_cons.mp hq with rfl | hq
          · exact hmono _ (hstack _ (List.mem_cons_self _ _))
          · exact hmono _ (hstack _ (List.mem_cons_of_mem _ hq))

/-- C2: in every maze produced by `Maze.generate_maze` with odd
dimensions of at least 5×5 (for any stream of shuffled direction lists),
every Path cell is reachable from the start cell `(1,1)` through Path
cells by 4-directional moves. -/
theorem generate_maze_connected (w h : Nat) (perms : Nat → List Pos)
    (hw : 5 ≤ w) (hh : 5 ≤ h) (hwodd : w % 2 = 1) (hhodd : h % 2 = 1)
    (hperm : ∀ k, ∀ d ∈ perms k, d ∈ baseDirections) (p : Pos)
    (hp : (generateMaze w h perms).is_path p.1 p.2 = true) :
    Reach (generateMaze w h perms) (1, 1) p := by
  have hd0 : GridDims w h (List.replicate h (List.replicate w 1)) := by
    constructor
    · exact List.length_replicate _ _
    · intro row hrow
      rw [List.eq_of_mem_replicate hrow]
      exact List.length_replicate _ _
  have hd1 : GridDims w h (setCell (List.replicate h (List.replicate w 1)) 1 1 0) :=
    gridDims_setCell _ _ _ hd0 _ _ _
  have hstart : (Maze.mk w h (setCell (List.replicate h (List.replicate w 1)) 1 1 0)).is_path
      1 1 = true := by
    unfold Maze.is_path
    dsimp only
    rw [if_pos (show (0 : Int) ≤ 1 ∧ (1 : Int) < (w : Int) ∧ (0 : Int) ≤ 1 ∧
      (1 : Int) < (h : Int) from ⟨by omega, by omega, by omega, by omega⟩)]
    have : gridGet (setCell (List.replicate h (List.replicate w 1)) 1 1 0) 1 1 = 0 :=
      gridGet_setCell_self w h _ hd0 1 1 0 (by omega) (by omega) (by omega) (by omega)
    rw [show (Maze.mk w h (setCell (List.replicate h (List.replicate w 1)) 1 1 0)).getCell
      1 1 = gridGet (setCell (List.replicate h (List.replicate w 1)) 1 1 0) 1 1 from rfl,
      this]
    rfl
  have hconn0 : ∀ q : Pos,
      (Maze.mk w h (setCell (List.replicate h (List.replicate w 1)) 1 1 0)).is_path
        q.1 q.2 = true →
      Reach (Maze.mk w h (setCell (List.replicate h (List.replicate w 1)) 1 1 0)) (1, 1) q := by
    intro q hq
    have hbnd := is_path_bounds _ _ _ hq
    dsimp only at hbnd
    have hq11 : q = ((1 : Int), (1 : Int)) := by
      by_contra hne
      have hcomp : q.1 ≠ 1 ∨ q.2 ≠ 1 := by
        by_cases h1 : q.1 = 1
        · refine Or.inr (fun h2 => hne ?_)
          exact Prod.ext h1 h2
        · exact Or.inl h1
      have hsame : gridGet (setCell (List.replicate h (List.replicate w 1)) 1 1 0) q.1 q.2 =
          gridGet (List.replicate h (List.replicate w 1)) q.1 q.2 :=
        gridGet_setCell_ne _ _ _ _ _ _ (by omega) (by omega) hbnd.1 hbnd.2.2.1 hcomp
      have hone : gridGet (List.replicate h (List.replicate w 1)) q.1 q.2 = 1 := by
        unfold gridGet
        rw [getD_replicate _ _ _ _ (by omega), getD_replicate _ _ _ _ (by omega)]
      unfold Maze.is_path at hq
      rw [if_pos (show 0 ≤ q.1 ∧ q.1 < ((Maze.mk w h _).width : Int) ∧ 0 ≤ q.2 ∧
        q.2 < ((Maze.mk w h _).height : Int) from
        ⟨hbnd.1, hbnd.2.1, hbnd.2.2.1, hbnd.2.2.2⟩)] at hq
      have : (Maze.mk w h (setCell (List.replicate h (List.replicate w 1)) 1 1 0)).getCell
          q.1 q.2 = 1 := by
        show gridGet _ q.1 q.2 = 1
        rw [hsame, hone]
      rw [this] at hq
      cases hq
    rw [hq11]
    exact Relation.ReflTransGen.refl
  exact genLoop_conn w h perms hperm (2 * w * h + 2) 0 _ [(1, 1)] hd1
    (by
      intro q hq
      rw [List.mem_singleton] at hq
      subst hq
      exact hstart) hconn0 p hp

/-- Witness for C2: the concrete 5×5 generation run with the identity
shuffle stream, at the concrete Path cell `(3,3)`. -/
theorem generate_maze_connected_witness :
    (generateMaze 5 5 (fun _ => baseDirections)).is_path 3 3 = true ∧
    Reach (generateMaze 5 5 (fun _ => baseDirections)) (1, 1) (3, 3) := by
  refine ⟨by decide, ?_⟩
  exact generate_maze_connected 5 5 (fun _ => baseDirections) (by omega) (by omega)
    (by omega) (by omega) (fun _ d hd => hd) (3, 3) (by decide)

/-! ## DFS: the helper's success and failure contracts (C6, C7) -/

/-- Failure contracts compose along the growth of the visited set. -/
theorem dfsFailConcl_trans (m : Maze) (goal : Pos) (v0 v1 v2 : List Pos)
    (h1 : DfsFailConcl m goal v0 v1) (h2 : DfsFailConcl m goal v1 v2) :
    DfsFailConcl m goal v0 v2 := by
  obtain ⟨g1, w1, c1, gl1⟩ := h1
  obtain ⟨g2, w2, c2, gl2⟩ := h2
  refine ⟨fun q hq => g2 q (g1 q hq), ?_, ?_, fun hg => gl1 (gl2 hg)⟩
  · intro q hq
    rcases w2 q hq with hq1 | hw
    · rcases w1 q hq1 with hq0 | hw
      · exact Or.inl hq0
      · exact Or.inr hw
    · exact Or.inr hw
  · intro a ha ha0 bb hbb hbw
    by_cases ha1 : a ∈ v1
    · exact g2 _ (c1 a ha1 ha0 bb hbb hbw)
    · exact c2 a ha ha1 bb hbb hbw

/-- The joint success/failure contract of `_dfs_helper` and its
neighbour loop, by induction on fuel. -/
theorem dfs_master (m : Maze) (goal : Pos) : ∀ fuel : Nat,
    (∀ cur v0 path b v' p', cur ∉ v0 → m.is_wall cur.1 cur.2 = false →
      dfsHelper m goal fuel cur v0 path = some (b, v', p') →
      (b = true → DfsExt goal v0 [cur] path p') ∧
      (b = false → p' = path ∧ cur ∈ v' ∧ DfsFailConcl m goal v0 v')) ∧
    (∀ nps v0 path b v' p',
      dfsChildren m goal fuel nps v0 path = some (b, v', p') →
      (b = true → DfsExt goal v0 nps path p') ∧
      (b = false → p' = path ∧ (∀ np ∈ nps, np ∈ v' ∨ m.is_wall np.1 np.2 = true) ∧
        DfsFailConcl m goal v0 v')) := by
  intro fuel
  induction fuel with
  | zero =>
    constructor
    · intro cur v0 path b v' p' _ _ hsome
      simp only [dfsHelper] at hsome
      exact Option.noConfusion hsome
    · intro nps
      induction nps with
      | nil =>
        intro v0 path b v' p' hsome
        simp only [dfsChildren] at hsome
        obtain ⟨rfl, rfl, rfl⟩ := hsome
        constructor
        · intro hcontra
          cases hcontra
        · intro _
          refine ⟨rfl, by simp, fun q hq => hq, fun q hq => Or.inl hq, ?_, fun h => h⟩
          intro a ha hnot
          exact absurd ha hnot
      | cons np rest ihn =>
        intro v0 path b v' p' hsome
        simp only [dfsChildren] at hsome
        by_cases hskip : np ∈ v0 ∨ m.is_wall np.1 np.2 = true
        · rw [if_pos hskip] at hsome
          have hrest := ihn v0 path b v' p' hsome
          constructor
          · intro hb
            obtain ⟨ext, h1, ⟨np', hnp', h2⟩, h3⟩ := hrest.1 hb
            exact ⟨ext, h1, ⟨np', List.mem_cons_of_mem _ hnp', h2⟩, h3⟩
          · intro hb
            obtain ⟨h1, h2, h3⟩ := hrest.2 hb
            refine ⟨h1, ?_, h3⟩
            intro q hq
            rcases List.mem_cons.mp hq with rfl | hq
            · rcases hskip with hs | hs
              · exact Or.inl (h3.1 _ hs)
              · exact Or.inr hs
            · exact h2 q hq
        · rw [if_neg hskip] at hsome
          simp only [dfsHelper] at hsome
          exact Option.noConfusion hsome
  | succ fuel ih =>
    obtain ⟨ihH, ihC⟩ := ih
    have hH : ∀ cur v0 path b v' p', cur ∉ v0 → m.is_wall cur.1 cur.2 = false →
        dfsHelper m goal (fuel + 1) cur v0 path = some (b, v', p') →
        (b = true → DfsExt goal v0 [cur] path p') ∧
        (b = false → p' = path ∧ cur ∈ v' ∧ DfsFailConcl m goal v0 v') := by
      intro cur v0 path b v' p' hcur hcw hsome
      simp only [dfsHelper] at hsome
      by_cases hg : cur = goal
      · rw [if_pos hg] at hsome
        simp only [Option.some.injEq, Prod.mk.injEq] at hsome
        obtain ⟨hb, hv, hp⟩ := hsome
        constructor
        · intro _
          refine ⟨[cur], by rw [hp], ⟨cur, List.mem_singleton_self _, rfl⟩, ?_, ?_, ?_, ?_⟩
          · rw [hg]
            rfl
          · exact List.chain'_singleton _
          · exact List.nodup_singleton _
          · intro e he
            rw [List.mem_singleton] at he
            subst he
            exact hcur
        · intro hbf
          rw [hbf] at hb
          cases hb
      · rw [if_neg hg] at hsome
        rcases hch : dfsChildren m goal fuel (pyNeighbors cur) (cur :: v0) (path ++ [cur])
          with _ | ⟨b2, v2, p2⟩
        · rw [hch] at hsome
          exact Option.noConfusion hsome
        · rw [hch] at hsome
          cases b2 with
          | true =>
            simp only [Option.some.injEq, Prod.mk.injEq] at hsome
            obtain ⟨hb, hv, hp⟩ := hsome
            constructor
            · intro _
              obtain ⟨ext2, he1, ⟨np, hnpmem, he2⟩, he3, he4, he5, he6⟩ :=
                (ihC (pyNeighbors cur) (cur :: v0) (path ++ [cur]) true v2 p2 hch).1 rfl
              obtain ⟨ext2h, ext2t, rfl⟩ : ∃ a t, ext2 = a :: t := by
                cases ext2 with
                | nil => cases he2
                | cons a t => exact ⟨a, t, rfl⟩
              have hhd : ext2h = np := by
                simp only [List.head?_cons, Option.some.injEq] at he2
                exact he2
              refine ⟨cur :: ext2h :: ext2t, ?_, ⟨cur, List.mem_singleton_self _, rfl⟩,
                ?_, ?_, ?_, ?_⟩
              · rw [← hp, he1]
                simp
              · rw [List.getLast?_cons_cons]
                exact he3
              · rw [List.chain'_cons]
                refine ⟨?_, he4⟩
                rw [hhd]
                exact hnpmem
              · rw [List.nodup_cons]
                refine ⟨?_, he5⟩
                intro hcontra
                exact (he6 _ hcontra) (List.mem_cons_self _ _)
              · intro e he
                rcases List.mem_cons.mp he with rfl | he
                · exact hcur
                · intro hev0
                  exact (he6 _ he) (List.mem_cons_of_mem _ hev0)
            · intro hbf
              rw [hbf] at hb
              cases hb
          | false =>
            simp only [Option.some.injEq, Prod.mk.injEq] at hsome
            obtain ⟨hb, hv, hp⟩ := hsome
            obtain ⟨hp2, hcov, hgrow, hneww, hclose, hgoal⟩ :=
              (ihC (pyNeighbors cur) (cur :: v0) (path ++ [cur]) false v2 p2 hch).2 rfl
            constructor
            · intro hbt
              rw [hbt] at hb
              cases hb
            · intro _
              have hpfin : p' = path := by
                rw [← hp, hp2]
                simp
              have hcurv2 : cur ∈ v2 := hgrow _ (List.mem_cons_self _ _)
              refine ⟨hpfin, by rw [← hv]; exact hcurv2, ?_, ?_, ?_, ?_⟩
              · intro q hq
                rw [← hv]
                exact hgrow _ (List.mem_cons_of_mem _ hq)
              · intro q hq
                rw [← hv] at hq
                rcases hneww q hq with hq1 | hw
                · rcases List.mem_cons.mp hq1 with rfl | hq0
                  · exact Or.inr hcw
                  · exact Or.inl hq0
                · exact Or.inr hw
              · intro a ha ha0 bb hbb hbw
                rw [← hv] at ha ⊢
                by_cases hac : a = cur
                · subst hac
                  rcases hcov bb hbb with hbv | hbwall
                  · exact hbv
                  · rw [hbw] at hbwall
                    cases hbwall
                · have : a ∉ cur :: v0 := by
                    intro hmem
                    rcases List.mem_cons.mp hmem with rfl | hmem
                    · exact hac rfl
                    · exact ha0 hmem
                  exact hclose a ha this bb hbb hbw
              · intro hgv
                rw [← hv] at hgv
                have := hgoal hgv
                rcases List.mem_cons.mp this with rfl | hmem
                · exact absurd rfl hg
                · exact hmem
    refine ⟨hH, ?_⟩
    intro nps
    induction nps with
    | nil =>
      intro v0 path b v' p' hsome
      simp only [dfsChildren] at hsome
      obtain ⟨rfl, rfl, rfl⟩ := hsome
      constructor
      · intro hcontra
        cases hcontra
      · intro _
        refine ⟨rfl, by simp, fun q hq => hq, fun q hq => Or.inl hq, ?_, fun h => h⟩
        intro a ha hnot
        exact absurd ha hnot
    | cons np rest ihn =>
      intro v0 path b v' p' hsome
      simp only [dfsChildren] at hsome
      by_cases hskip : np ∈ v0 ∨ m.is_wall np.1 np.2 = true
      · rw [if_pos hskip] at hsome
        have hrest := ihn v0 path b v' p' hsome
        constructor
        · intro hb
          obtain ⟨ext, h1, ⟨np', hnp', h2⟩, h3⟩ := hrest.1 hb
          exact ⟨ext, h1, ⟨np', List.mem_cons_of_mem _ hnp', h2⟩, h3⟩
        · intro hb
          obtain ⟨h1, h2, h3⟩ := hrest.2 hb
          refine ⟨h1, ?_, h3⟩
          intro q hq
          rcases List.mem_cons.mp hq with rfl | hq
          · rcases hskip with hs | hs
            · exact Or.inl (h3.1 _ hs)
            · exact Or.inr hs
          · exact h2 q hq
      · rw [if_neg hskip] at hsome
        push_neg at hskip
        obtain ⟨hnpv, hnpw⟩ := hskip
        have hnpw' : m.is_wall np.1 np.2 = false := by
          cases hw : m.is_wall np.1 np.2
          · rfl
          · exact absurd hw hnpw
        rcases hh : dfsHelper m goal (fuel + 1) np v0 path with _ | ⟨b1, v1, p1⟩
        · rw [hh] at hsome
          exact Option.noConfusion hsome
        · rw [hh] at hsome
          cases b1 with
          | true =>
            simp only [Option.some.injEq, Prod.mk.injEq] at hsome
            obtain ⟨hb, hv, hp⟩ := hsome
            constructor
            · intro _
              obtain ⟨ext, h1, ⟨np', hnp', h2⟩, h3, h4, h5, h6⟩ :=
                (hH np v0 path true v1 p1 hnpv hnpw' hh).1 rfl
              rw [List.mem_singleton] at hnp'
              subst hnp'
              exact ⟨ext, by rw [← hp, h1], ⟨np', List.mem_cons_self _ _, h2⟩, h3, h4, h5, h6⟩
            · intro hbf
              rw [hbf] at hb
              cases hb
          | false =>
            obtain ⟨hp1, hnpv1, hfail1⟩ := (hH np v0 path false v1 p1 hnpv hnpw' hh).2 rfl
            rw [hp1] at hsome
            have hrest := ihn v1 path b v' p' hsome
            constructor
            · intro hb
              obtain ⟨ext, h1, ⟨np', hnp', h2⟩, h3, h4, h5, h6⟩ := hrest.1 hb
              refine ⟨ext, h1, ⟨np', List.mem_cons_of_mem _ hnp', h2⟩, h3, h4, h5, ?_⟩
              intro e he hev0
              exact (h6 e he) (hfail1.1 _ hev0)
            · intro hb
              obtain ⟨h1, h2, h3⟩ := hrest.2 hb
              refine ⟨h1, ?_, dfsFailConcl_trans m goal v0 v1 v' hfail1 h3⟩
              intro q hq
              rcases List.mem_cons.mp hq with rfl | hq
              · exact Or.inl (h3.1 _ hnpv1)
              · exact h2 q hq

/-- Non-wall cells are in bounds. -/
theorem mem_boundsFinset_of_not_wall (m : Maze) (p : Pos)
    (h : m.is_wall p.1 p.2 = false) : p ∈ boundsFinset m := by
  unfold Maze.is_wall at h
  by_cases hb : 0 ≤ p.1 ∧ p.1 < (m.width : Int) ∧ 0 ≤ p.2 ∧ p.2 < (m.height : Int)
  · unfold boundsFinset
    rw [Finset.mem_product, Finset.mem_Ico, Finset.mem_Ico]
    exact ⟨⟨hb.1, hb.2.1⟩, ⟨hb.2.2.1, hb.2.2.2⟩⟩
  · rw [if_neg hb] at h
    cases h

/-- The DFS fuel bound: with more fuel than unvisited in-bounds cells,
neither the helper nor its neighbour loop can exhaust fuel. -/
theorem dfs_fuel (m : Maze) (goal : Pos) : ∀ fuel : Nat,
    (∀ cur v0 path, cur ∉ v0 → m.is_wall cur.1 cur.2 = false →
      (boundsFinset m \ v0.toFinset).card < fuel →
      dfsHelper m goal fuel cur v0 path ≠ none) ∧
    (∀ nps v0 path, (boundsFinset m \ v0.toFinset).card < fuel →
      dfsChildren m goal fuel nps v0 path ≠ none) := by
  intro fuel
  induction fuel with
  | zero =>
    constructor
    · intro cur v0 path _ _ hcard
      omega
    · intro nps v0 path hcard
      omega
  | succ fuel ih =>
    obtain ⟨ihH, ihC⟩ := ih
    have hdec : ∀ (cur : Pos) (v0 : List Pos), cur ∉ v0 →
        m.is_wall cur.1 cur.2 = false →
        (boundsFinset m \ v0.toFinset).card < fuel + 1 →
        (boundsFinset m \ (cur :: v0).toFinset).card < fuel := by
      intro cur v0 hcur hcw hcard
      have hmem : cur ∈ boundsFinset m \ v0.toFinset := by
        rw [Finset.mem_sdiff]
        exact ⟨mem_boundsFinset_of_not_wall m cur hcw, by
          rw [List.mem_toFinset]
          exact hcur⟩
      have : boundsFinset m \ (cur :: v0).toFinset =
          (boundsFinset m \ v0.toFinset).erase cur := by
        ext q
        simp only [Finset.mem_sdiff, List.toFinset_cons, Finset.mem_insert,
          Finset.mem_erase, List.mem_toFinset]
        constructor
        · rintro ⟨hq1, hq2⟩
          push_neg at hq2
          exact ⟨hq2.1, hq1, hq2.2⟩
        · rintro ⟨hq1, hq2, hq3⟩
          refine ⟨hq2, ?_⟩
          push_neg
          exact ⟨hq1, hq3⟩
      rw [this, Finset.card_erase_of_mem hmem]
      have hpos : 0 < (boundsFinset m \ v0.toFinset).card :=
        Finset.card_pos.mpr ⟨cur, hmem⟩
      omega
    have hH : ∀ cur v0 path, cur ∉ v0 → m.is_wall cur.1 cur.2 = false →
        (boundsFinset m \ v0.toFinset).card < fuel + 1 →
        dfsHelper m goal (fuel + 1) cur v0 path ≠ none := by
      intro cur v0 path hcur hcw hcard
      simp only [dfsHelper]
      by_cases hg : cur = goal
      · rw [if_pos hg]
        exact Option.noConfusion
      · rw [if_neg hg]
        rcases hch : dfsChildren m goal fuel (pyNeighbors cur) (cur :: v0) (path ++ [cur])
          with _ | ⟨b2, v2, p2⟩
        · exact absurd hch (ihC _ _ _ (hdec cur v0 hcur hcw hcard))
        · cases b2 <;> exact Option.noConfusion
    refine ⟨hH, ?_⟩
    intro nps
    induction nps with
    | nil =>
      intro v0 path _
      simp only [dfsChildren]
      exact Option.noConfusion
    | cons np rest ihn =>
      intro v0 path hcard
      simp only [dfsChildren]
      by_cases hskip : np ∈ v0 ∨ m.is_wall np.1 np.2 = true
      · rw [if_pos hskip]
        exact ihn v0 path hcard
      · rw [if_neg hskip]
        push_neg at hskip
        obtain ⟨hnpv, hnpw⟩ := hskip
        have hnpw' : m.is_wall np.1 np.2 = false := by
          cases hw : m.is_wall np.1 np.2
          · rfl
          · exact absurd hw hnpw
        rcases hh : dfsHelper m goal (fuel + 1) np v0 path with _ | ⟨b1, v1, p1⟩
        · exact absurd hh (hH np v0 path hnpv hnpw' hcard)
        · cases b1 with
          | true => exact Option.noConfusion
          | false =>
            obtain ⟨_, _, hgrow, _⟩ :=
              ((dfs_master m goal (fuel + 1)).1 np v0 path false v1 p1 hnpv hnpw' hh).2 rfl
            have hsub : boundsFinset m \ v1.toFinset ⊆ boundsFinset m \ v0.toFinset := by
              intro q hq
              rw [Finset.mem_sdiff] at hq ⊢
              refine ⟨hq.1, fun hmem => hq.2 ?_⟩
              rw [List.mem_toFinset] at hmem ⊢
              exact hgrow _ hmem
            exact ihn v1 p1 (by
              have := Finset.card_le_card hsub
              omega)

/-- If a visited set contains `s` and is closed under non-wall
4-neighbour moves, it contains the endpoint of every route leaving `s`. -/
theorem goal_mem_of_closed (m : Maze) (v : List Pos)
    (hclosed : ∀ a ∈ v, ∀ b ∈ pyNeighbors a, m.is_wall b.1 b.2 = false → b ∈ v) :
    ∀ (r : List Pos) (s g : Pos), IsRoute m s g r → s ∈ v → g ∈ v := by
  intro r
  induction r with
  | nil =>
    intro s g hr _
    cases hr.1
  | cons x t iht =>
    intro s g hr hsv
    obtain ⟨hh, hl, hc, hcells⟩ := hr
    have hsx : s = x := by
      simp only [List.head?_cons, Option.some.injEq] at hh
      exact hh.symm
    subst hsx
    cases t with
    | nil =>
      simp only [List.getLast?_singleton, Option.some.injEq] at hl
      rw [← hl]
      exact hsv
    | cons y t2 =>
      have hyx : y ∈ pyNeighbors s := (List.chain'_cons.mp hc).1
      have hyv : y ∈ v := hclosed s hsv y hyx
        (is_wall_false_of_is_path m y.1 y.2 (hcells y (List.mem_cons_of_mem _
          (List.mem_cons_self _ _))))
      refine iht y g ⟨rfl, ?_, (List.chain'_cons.mp hc).2, ?_⟩ hyv
      · rw [← hl, List.getLast?_cons_cons]
      · intro q hq
        exact hcells q (List.mem_cons_of_mem _ hq)

/-- The cardinality of the in-bounds set. -/
theorem card_boundsFinset (m : Maze) : (boundsFinset m).card = m.width * m.height := by
  unfold boundsFinset
  rw [Finset.card_product, Int.card_Ico, Int.card_Ico]
  simp

/-- Full case analysis of a `DFS.find_path` run on Path endpoints:
either it returns `[]` and no route exists, or it returns a nonempty
simple unit-step chain from `start` to `goal`. -/
theorem dfs_run_spec (m : Maze) (s g : Pos)
    (hs : m.is_path s.1 s.2 = true) (hg : m.is_path g.1 g.2 = true) :
    (DFSFindPath m s g = [] ∧ ∀ r, ¬IsRoute m s g r) ∨
    (DFSFindPath m s g ≠ [] ∧ (DFSFindPath m s g).head? = some s ∧
     (DFSFindPath m s g).getLast? = some g ∧
     (DFSFindPath m s g).Chain' (fun p q => q ∈ pyNeighbors p) ∧
     (DFSFindPath m s g).Nodup) := by
  have hguard : (!(m.is_path s.1 s.2) || !(m.is_path g.1 g.2)) = false := by
    rw [hs, hg]
    rfl
  have hsw : m.is_wall s.1 s.2 = false := is_wall_false_of_is_path m s.1 s.2 hs
  have hcard : (boundsFinset m \ ([] : List Pos).toFinset).card <
      m.width * m.height + 2 := by
    simp only [List.toFinset_nil, Finset.sdiff_empty, card_boundsFinset]
    omega
  rcases hh : dfsHelper m g (m.width * m.height + 2) s [] [] with _ | ⟨b1, v1, p1⟩
  · exact absurd hh ((dfs_fuel m g (m.width * m.height + 2)).1 s [] []
      (List.not_mem_nil s) hsw hcard)
  · cases b1 with
    | true =>
      right
      obtain ⟨ext, h1, ⟨np, hnp, h2⟩, h3, h4, h5, h6⟩ :=
        ((dfs_master m g (m.width * m.height + 2)).1 s [] [] true v1 p1
          (List.not_mem_nil s) hsw hh).1 rfl
      rw [List.mem_singleton] at hnp
      rw [hnp] at h2
      have hres : DFSFindPath m s g = p1 := by
        unfold DFSFindPath
        rw [if_neg (by rw [hguard]; exact Bool.false_ne_true), hh]
      rw [List.nil_append] at h1
      subst h1
      rw [hres]
      refine ⟨?_, h2, h3, h4, h5⟩
      intro hcon
      rw [hcon] at h2
      cases h2
    | false =>
      left
      obtain ⟨hp1, hsv, hgrow, hneww, hclose, hgoal⟩ :=
        ((dfs_master m g (m.width * m.height + 2)).1 s [] [] false v1 p1
          (List.not_mem_nil s) hsw hh).2 rfl
      have hres : DFSFindPath m s g = [] := by
        unfold DFSFindPath
        rw [if_neg (by rw [hguard]; exact Bool.false_ne_true), hh]
      refine ⟨hres, ?_⟩
      intro r hr
      have hclosed : ∀ a ∈ v1, ∀ b ∈ pyNeighbors a, m.is_wall b.1 b.2 = false →
          b ∈ v1 := by
        intro a ha bb hbb hbw
        exact hclose a ha (List.not_mem_nil a) bb hbb hbw
      have hgv : g ∈ v1 := goal_mem_of_closed m v1 hclosed r s g hr hsv
      exact (List.not_mem_nil g) (hgoal hgv)

/-- 4-neighbourhood means exactly one axis-aligned unit step. -/
theorem unit_step_of_mem_pyNeighbors (p q : Pos) (h : q ∈ pyNeighbors p) :
    |q.1 - p.1| + |q.2 - p.2| = 1 := by
  simp only [pyNeighbors, List.mem_cons, List.not_mem_nil, or_false] at h
  rcases h with rfl | rfl | rfl | rfl <;>
    simp only [Int.abs_eq_natAbs] <;> omega

/-- C6: on Path endpoints, `DFS.find_path` returns a path with no
repeated coordinate whose consecutive pairs differ by exactly one
axis-aligned unit step, and the path is nonempty whenever some
Path-only route from start to goal exists. -/
theorem dfs_path_simple_and_complete (m : Maze) (s g : Pos)
    (hs : m.is_path s.1 s.2 = true) (hg : m.is_path g.1 g.2 = true) :
    (DFSFindPath m s g).Nodup ∧
    (DFSFindPath m s g).Chain' (fun p q => |q.1 - p.1| + |q.2 - p.2| = 1) ∧
    ((∃ r, IsRoute m s g r) → DFSFindPath m s g ≠ []) := by
  rcases dfs_run_spec m s g hs hg with ⟨hempty, hnor⟩ | ⟨hne, hh, hl, hchain, hnd⟩
  · rw [hempty]
    refine ⟨List.nodup_nil, List.chain'_nil, ?_⟩
    rintro ⟨r, hr⟩
    exact absurd hr (hnor r)
  · exact ⟨hnd, hchain.imp (fun a b => unit_step_of_mem_pyNeighbors a b), fun _ => hne⟩

/-- Witness for C6 on the concrete maze. -/
theorem dfs_path_simple_and_complete_witness :
    cexMaze.is_path 7 2 = true ∧ cexMaze.is_path 1 1 = true ∧
    (DFSFindPath cexMaze (7, 2) (1, 1)).Nodup ∧
    (DFSFindPath cexMaze (7, 2) (1, 1)).Chain'
      (fun p q => |q.1 - p.1| + |q.2 - p.2| = 1) := by
  refine ⟨by decide, by decide, ?_, ?_⟩
  · exact (dfs_path_simple_and_complete cexMaze (7, 2) (1, 1) (by decide) (by decide)).1
  · exact (dfs_path_simple_and_complete cexMaze (7, 2) (1, 1) (by decide) (by decide)).2.1

/-! ## BFS: parent chains, reconstruction and optimality (C1, C7) -/

/-- The parent dictionary is a function, so chain depths are unique. -/
theorem pchain_unique (m : Maze) (parent : List (Pos × Option Pos)) (s : Pos) :
    ∀ p n₁, PChain m parent s p n₁ → ∀ n₂, PChain m parent s p n₂ → n₁ = n₂ := by
  intro p n₁ h1
  induction h1 with
  | base hroot =>
    intro n₂ h2
    cases h2 with
    | base _ => rfl
    | step hlk _ _ _ =>
      rw [hroot] at hlk
      cases hlk
  | step hlk hnb hw hprev ih =>
    intro n₂ h2
    cases h2 with
    | base hroot =>
      rw [hroot] at hlk
      cases hlk
    | step hlk2 hnb2 hw2 hprev2 =>
      rw [hlk] at hlk2
      simp only [Option.some.injEq] at hlk2
      subst hlk2
      have := ih _ hprev2
      omega

/-- Chains survive adding a fresh key to the parent dictionary. -/
theorem pchain_extend (m : Maze) (parent : List (Pos × Option Pos)) (s k : Pos)
    (x : Option Pos) (hk : alookup parent k = none) :
    ∀ p n, PChain m parent s p n → PChain m ((k, x) :: parent) s p n := by
  intro p n h
  induction h with
  | base hroot =>
    refine PChain.base ?_
    show (if s = k then some x else alookup parent s) = some none
    rw [if_neg (by rintro rfl; rw [hk] at hroot; cases hroot), hroot]
  | step hlk hnb hw hprev ih =>
    rename_i u v n' 
    refine PChain.step ?_ hnb hw ih
    show (if v = k then some x else alookup parent v) = some (some u)
    rw [if_neg (by rintro rfl; rw [hk] at hlk; cases hlk), hlk]

/-- Looked-up keys are present. -/
theorem alookup_isSome_of_pchain (m : Maze) (parent : List (Pos × Option Pos))
    (s p : Pos) (n : Nat) (h : PChain m parent s p n) : (alookup parent p).isSome := by
  cases h with
  | base hroot => rw [hroot]; rfl
  | step hlk _ _ _ => rw [hlk]; rfl

/-- Correctness of `BFS._reconstruct_path` over a parent chain: with
enough fuel the reconstruction prepends the unique chain route. -/
theorem reconstructB_spec (m : Maze) (parent : List (Pos × Option Pos)) (s : Pos) :
    ∀ (p : Pos) (n : Nat), PChain m parent s p n → ∀ (fuel : Nat) (acc : List Pos),
    n < fuel →
    ∃ r : List Pos, reconstructB parent fuel p acc = r ++ acc ∧
      r.head? = some s ∧ r.getLast? = some p ∧
      r.Chain' (fun a b => b ∈ pyNeighbors a) ∧
      (∀ q ∈ r, q = s ∨ m.is_wall q.1 q.2 = false) ∧ r.length = n + 1 := by
  intro p n h
  induction h with
  | base hroot =>
    intro fuel acc hfuel
    obtain ⟨fuel', rfl⟩ : ∃ f, fuel = f + 1 := ⟨fuel - 1, by omega⟩
    refine ⟨[s], ?_, rfl, rfl, List.chain'_singleton _, ?_, rfl⟩
    · simp only [reconstructB, hroot]
      rfl
    · intro q hq
      rw [List.mem_singleton] at hq
      exact Or.inl hq
  | step hlk hnb hw hprev ih =>
    rename_i u v n'
    intro fuel acc hfuel
    obtain ⟨fuel', rfl⟩ : ∃ f, fuel = f + 1 := ⟨fuel - 1, by omega⟩
    obtain ⟨r, hr1, hr2, hr3, hr4, hr5, hr6⟩ := ih fuel' (v :: acc) (by omega)
    refine ⟨r ++ [v], ?_, ?_, ?_, ?_, ?_, ?_⟩
    · simp only [reconstructB, hlk]
      rw [hr1, List.append_assoc]
      rfl
    · cases r with
      | nil => cases hr2
      | cons a t => exact hr2
    · rw [List.getLast?_concat]
    · rw [List.chain'_append]
      refine ⟨hr4, List.chain'_singleton _, ?_⟩
      intro x hx y hy
      rw [hr3] at hx
      simp only [List.head?_cons, Option.mem_def, Option.some.injEq] at hx hy
      subst hx
      rw [← hy]
      exact hnb
    · intro q hq
      rcases List.mem_append.mp hq with hq | hq
      · exact hr5 q hq
      · rw [List.mem_singleton] at hq
        subst hq
        exact Or.inr hw
    · rw [List.length_append, hr6, List.length_singleton]

/-- Any route from inside a set `V` to outside it crosses the frontier:
some strict prefix of the route ends at a member `c` of `V` whose
neighbour `d` on the route is outside `V`. -/
theorem exists_frontier_crossing (m : Maze) (V : List Pos) :
    ∀ (r : List Pos) (a b : Pos), IsRoute m a b r → a ∈ V → b ∉ V →
    ∃ (r1 : List Pos) (c d : Pos), IsRoute m a c r1 ∧ c ∈ V ∧ d ∉ V ∧
      d ∈ pyNeighbors c ∧ m.is_wall d.1 d.2 = false ∧ r1.length + 1 ≤ r.length := by
  intro r
  induction r with
  | nil =>
    intro a b hr
    cases hr.1
  | cons x t iht =>
    intro a b hr haV hbV
    obtain ⟨hh, hl, hc, hcells⟩ := hr
    have hax : a = x := by
      simp only [List.head?_cons, Option.some.injEq] at hh
      exact hh.symm
    subst hax
    cases t with
    | nil =>
      simp only [List.getLast?_singleton, Option.some.injEq] at hl
      rw [← hl] at hbV
      exact absurd haV hbV
    | cons y t2 =>
      have hyx : y ∈ pyNeighbors a := (List.chain'_cons.mp hc).1
      have hyw : m.is_wall y.1 y.2 = false :=
        is_wall_false_of_is_path m y.1 y.2
          (hcells y (List.mem_cons_of_mem _ (List.mem_cons_self _ _)))
      by_cases hyV : y ∈ V
      · have hroute2 : IsRoute m y b (y :: t2) := by
          refine ⟨rfl, ?_, (List.chain'_cons.mp hc).2, ?_⟩
          · rw [← hl, List.getLast?_cons_cons]
          · intro q hq
            exact hcells q (List.mem_cons_of_mem _ hq)
        obtain ⟨r1, c, d, hr1, hcV, hdV, hdnb, hdw, hlen⟩ := iht y b hroute2 hyV hbV
        refine ⟨a :: r1, c, d, ?_, hcV, hdV, hdnb, hdw, ?_⟩
        · obtain ⟨hh1, hl1, hc1, hcells1⟩ := hr1
          refine ⟨rfl, ?_, ?_, ?_⟩
          · cases r1 with
            | nil => cases hh1
            | cons z t3 =>
              rw [List.getLast?_cons_cons]
              exact hl1
          · cases r1 with
            | nil => cases hh1
            | cons z t3 =>
              rw [List.chain'_cons]
              refine ⟨?_, hc1⟩
              simp only [List.head?_cons, Option.some.injEq] at hh1
              rw [hh1]
              exact hyx
          · intro q hq
            rcases List.mem_cons.mp hq with rfl | hq
            · exact hcells q (List.mem_cons_self _ _)
            · exact hcells1 q hq
        · simp only [List.length_cons] at hlen ⊢
          omega
      · refine ⟨[a], a, y, ?_, haV, hyV, hyx, hyw, ?_⟩
        · exact ⟨rfl, rfl, List.chain'_singleton _,
            fun q hq => by
              rw [List.mem_singleton] at hq
              subst hq
              exact hcells q (List.mem_cons_self _ _)⟩
        · simp only [List.length_singleton, List.length_cons, List.length_nil]
          omega

/-- Paired-lists membership: a left member has a right partner. -/
theorem forall2_mem_left {α β : Type} {R : α → β → Prop} :
    ∀ {l₁ : List α} {l₂ : List β}, List.Forall₂ R l₁ l₂ → ∀ a ∈ l₁, ∃ b ∈ l₂, R a b := by
  intro l₁
  induction l₁ with
  | nil =>
    intro l₂ _ a ha
    cases ha
  | cons x t ih =>
    intro l₂ h a ha
    cases h with
    | cons hxy ht =>
      rcases List.mem_cons.mp ha with rfl | ha
      · exact ⟨_, List.mem_cons_self _ _, hxy⟩
      · obtain ⟨b, hb, hr⟩ := ih ht a ha
        exact ⟨b, List.mem_cons_of_mem _ hb, hr⟩

/-- Inserting a fresh in-bounds cell into the visited list shrinks the
unvisited in-bounds region by exactly one. -/
theorem card_sdiff_cons (m : Maze) (v : List Pos) (b : Pos)
    (hb : b ∈ boundsFinset m) (hbv : b ∉ v) :
    (boundsFinset m \ (b :: v).toFinset).card + 1 =
      (boundsFinset m \ v.toFinset).card := by
  have hmem : b ∈ boundsFinset m \ v.toFinset := by
    rw [Finset.mem_sdiff, List.mem_toFinset]
    exact ⟨hb, hbv⟩
  have heq : boundsFinset m \ (b :: v).toFinset =
      (boundsFinset m \ v.toFinset).erase b := by
    ext q
    simp only [Finset.mem_sdiff, List.toFinset_cons, Finset.mem_insert,
      Finset.mem_erase, List.mem_toFinset]
    constructor
    · rintro ⟨hq1, hq2⟩
      push_neg at hq2
      exact ⟨hq2.1, hq1, hq2.2⟩
    · rintro ⟨hq1, hq2, hq3⟩
      refine ⟨hq2, ?_⟩
      push_neg
      exact ⟨hq1, hq3⟩
  rw [heq, Finset.card_erase_of_mem hmem]
  have hpos : 0 < (boundsFinset m \ v.toFinset).card := Finset.card_pos.mpr ⟨b, hmem⟩
  omega

/-- Paired lists concatenate pairwise. -/
theorem forall2_append {α β : Type} {R : α → β → Prop} :
    ∀ {l₁ : List α} {l₂ : List β} {u₁ : List α} {u₂ : List β},
    List.Forall₂ R l₁ l₂ → List.Forall₂ R u₁ u₂ → List.Forall₂ R (l₁ ++ u₁) (l₂ ++ u₂) := by
  intro l₁
  induction l₁ with
  | nil =>
    intro l₂ u₁ u₂ h hu
    cases h
    exact hu
  | cons x t ih =>
    intro l₂ u₁ u₂ h hu
    cases h with
    | cons hxy ht => exact List.Forall₂.cons hxy (ih ht hu)

/-- One full neighbour-relaxation pass of the BFS loop: starting from a
mid-pop state whose frontier obligation at `current` is reduced to the
still-unprocessed neighbour list `nps`, the pass restores the full loop
invariant and does not increase the termination measure. -/
theorem bfs_relax_spec (m : Maze) (s goal current : Pos) (n_c : Nat) :
    ∀ (nps : List Pos) (visited : List Pos) (parent : List (Pos × Option Pos))
      (queue : List Pos) (lens : List Nat),
    (∀ b ∈ nps, b ∈ pyNeighbors current) →
    (∀ p : Pos, p ∈ visited ↔ (alookup parent p).isSome) →
    (∀ p ∈ queue, p ∈ visited) →
    alookup parent s = some none →
    s ∈ visited →
    List.Forall₂ (fun p n => PChain m parent s p n) queue lens →
    lens.Pairwise (· ≤ ·) →
    (∀ a ∈ lens, n_c ≤ a ∧ a ≤ n_c + 1) →
    (∀ p ∈ visited, ∃ n, PChain m parent s p n ∧
      (∀ r, IsRoute m s p r → n + 1 ≤ r.length) ∧ n + 1 ≤ parent.length) →
    (∀ a ∈ visited, a ∈ queue ∨
      (∀ b ∈ pyNeighbors a, m.is_wall b.1 b.2 = false → b ∈ visited) ∨
      (a = current ∧ ∀ b ∈ pyNeighbors current,
        b ∈ nps ∨ m.is_wall b.1 b.2 = true ∨ b ∈ visited)) →
    (goal ∈ visited → goal ∈ queue) →
    current ∈ visited →
    PChain m parent s current n_c →
    (∀ r, IsRoute m s current r → n_c + 1 ≤ r.length) →
    n_c + 1 ≤ parent.length →
    ∃ lens' : List Nat,
      BFSInv m s goal (bfsRelax m current nps (visited, parent, queue)).2.2
        (bfsRelax m current nps (visited, parent, queue)).1
        (bfsRelax m current nps (visited, parent, queue)).2.1 lens' ∧
      (bfsRelax m current nps (visited, parent, queue)).2.2.length +
        (boundsFinset m \
          (bfsRelax m current nps (visited, parent, queue)).1.toFinset).card ≤
        queue.length + (boundsFinset m \ visited.toFinset).card := by
  intro nps
  induction nps with
  | nil =>
    intro visited parent queue lens _ hkeys hqv hroot hsv hpair hsort hrange hmin
      hfront hgq _ _ _ _
    refine ⟨lens, ⟨hkeys, hqv, hroot, hsv, hpair, hsort, ?_, hmin, ?_, hgq⟩, le_refl _⟩
    · intro a ha b hb
      have h1 := hrange a ha
      have h2 := hrange b hb
      omega
    · intro a ha
      rcases hfront a ha with h | h | ⟨rfl, hcov⟩
      · exact Or.inl h
      · exact Or.inr h
      · right
        intro b hb hbw
        rcases hcov b hb with hb1 | hb2 | hb3
        · cases hb1
        · rw [hb2] at hbw
          cases hbw
        · exact hb3
  | cons np rest ih =>
    intro visited parent queue lens hnps hkeys hqv hroot hsv hpair hsort hrange hmin
      hfront hgq hcv hcchain hcmin hcbound
    by_cases hskip : np ∈ visited ∨ m.is_wall np.1 np.2 = true
    · have hstep : bfsRelax m current (np :: rest) (visited, parent, queue) =
          bfsRelax m current rest (visited, parent, queue) := by
        simp only [bfsRelax]
        rw [if_pos hskip]
      rw [hstep]
      refine ih visited parent queue lens
        (fun b hb => hnps b (List.mem_cons_of_mem _ hb))
        hkeys hqv hroot hsv hpair hsort hrange hmin ?_ hgq hcv hcchain hcmin hcbound
      intro a ha
      rcases hfront a ha with h | h | ⟨rfl, hcov⟩
      · exact Or.inl h
      · exact Or.inr (Or.inl h)
      · refine Or.inr (Or.inr ⟨rfl, ?_⟩)
        intro b hb
        rcases hcov b hb with hb1 | hb2 | hb3
        · rcases List.mem_cons.mp hb1 with rfl | hb1'
          · rcases hskip with h | h
            · exact Or.inr (Or.inr h)
            · exact Or.inr (Or.inl h)
          · exact Or.inl hb1'
        · exact Or.inr (Or.inl hb2)
        · exact Or.inr (Or.inr hb3)
    · push_neg at hskip
      obtain ⟨hnpv, hnpw'⟩ := hskip
      have hnpw : m.is_wall np.1 np.2 = false := by
        cases h : m.is_wall np.1 np.2
        · rfl
        · exact absurd h hnpw'
      have hstep : bfsRelax m current (np :: rest) (visited, parent, queue) =
          bfsRelax m current rest
            (np :: visited, (np, some current) :: parent, queue ++ [np]) := by
        simp only [bfsRelax]
        rw [if_neg (by
          rintro (h | h)
          · exact hnpv h
          · exact hnpw' h)]
      rw [hstep]
      have hfresh : alookup parent np = none := by
        cases h : alookup parent np
        · rfl
        · exact absurd ((hkeys np).mpr (by rw [h]; rfl)) hnpv
      have hext : ∀ p n, PChain m parent s p n →
          PChain m ((np, some current) :: parent) s p n :=
        pchain_extend m parent s np (some current) hfresh
      have hnpnb : np ∈ pyNeighbors current := hnps np (List.mem_cons_self _ _)
      have hchain_np : PChain m ((np, some current) :: parent) s np (n_c + 1) := by
        refine PChain.step ?_ hnpnb hnpw (hext current n_c hcchain)
        show (if np = np then some (some current) else alookup parent np) =
          some (some current)
        rw [if_pos rfl]
      have hmin_np : ∀ r, IsRoute m s np r → (n_c + 1) + 1 ≤ r.length := by
        intro r hr
        obtain ⟨r1, c, d, hr1, hcV, hdV, hdnb, hdw, hlen⟩ :=
          exists_frontier_crossing m visited r s np hr hsv hnpv
        obtain ⟨n', hchain_c, hmin_c, _⟩ := hmin c hcV
        have hnc_le : n_c ≤ n' := by
          rcases hfront c hcV with hq | hcl | ⟨rfl, _⟩
          · obtain ⟨b, hb, hchain_b⟩ := forall2_mem_left hpair c hq
            have := pchain_unique m parent s c n' hchain_c b hchain_b
            have := hrange b hb
            omega
          · exact absurd (hcl d hdnb hdw) hdV
          · have := pchain_unique m parent s c n' hchain_c n_c hcchain
            omega
        have := hmin_c r1 hr1
        omega
      refine ih (np :: visited) ((np, some current) :: parent) (queue ++ [np])
        (lens ++ [n_c + 1])
        (fun b hb => hnps b (List.mem_cons_of_mem _ hb))
        ?_ ?_ ?_ (List.mem_cons_of_mem _ hsv) ?_ ?_ ?_ ?_ ?_ ?_
        (List.mem_cons_of_mem _ hcv) (hext current n_c hcchain) hcmin ?_
        |>.imp ?_
      · intro p
        show p ∈ np :: visited ↔
          (if p = np then some (some current) else alookup parent p).isSome
        by_cases hp : p = np
        · subst hp
          simp
        · rw [if_neg hp]
          simp only [List.mem_cons, hp, false_or]
          exact hkeys p
      · intro p hp
        rcases List.mem_append.mp hp with h | h
        · exact List.mem_cons_of_mem _ (hqv p h)
        · rw [List.mem_singleton] at h
          subst h
          exact List.mem_cons_self _ _
      · show (if s = np then some (some current) else alookup parent s) = some none
        rw [if_neg (by rintro rfl; exact hnpv hsv), hroot]
      · exact forall2_append (hpair.imp (fun p n h => hext p n h))
          (List.Forall₂.cons hchain_np List.Forall₂.nil)
      · rw [List.pairwise_append]
        refine ⟨hsort, List.pairwise_singleton _ _, ?_⟩
        intro a ha b hb
        rw [List.mem_singleton] at hb
        subst hb
        exact (hrange a ha).2
      · intro a ha
        rcases List.mem_append.mp ha with h | h
        · have := hrange a h
          omega
        · rw [List.mem_singleton] at h
          omega
      · intro p hp
        rcases List.mem_cons.mp hp with rfl | hp'
        · refine ⟨n_c + 1, hchain_np, hmin_np, ?_⟩
          simp only [List.length_cons]
          omega
        · obtain ⟨n, hch, hmn, hbd⟩ := hmin p hp'
          refine ⟨n, hext p n hch, hmn, ?_⟩
          simp only [List.length_cons]
          omega
      · intro a ha
        rcases List.mem_cons.mp ha with rfl | ha'
        · exact Or.inl (List.mem_append.mpr (Or.inr (List.mem_singleton.mpr rfl)))
        · rcases hfront a ha' with h | h | ⟨rfl, hcov⟩
          · exact Or.inl (List.mem_append.mpr (Or.inl h))
          · exact Or.inr (Or.inl (fun b hb hbw => List.mem_cons_of_mem _ (h b hb hbw)))
          · refine Or.inr (Or.inr ⟨rfl, ?_⟩)
            intro b hb
            rcases hcov b hb with hb1 | hb2 | hb3
            · rcases List.mem_cons.mp hb1 with rfl | hb1'
              · exact Or.inr (Or.inr (List.mem_cons_self _ _))
              · exact Or.inl hb1'
            · exact Or.inr (Or.inl hb2)
            · exact Or.inr (Or.inr (List.mem_cons_of_mem _ hb3))
      · intro hgv
        rcases List.mem_cons.mp hgv with rfl | hgv'
        · exact List.mem_append.mpr (Or.inr (List.mem_singleton.mpr rfl))
        · exact List.mem_append.mpr (Or.inl (hgq hgv'))
      · simp only [List.length_cons]
        omega
      · intro lens' h
        obtain ⟨hinv, hmeas⟩ := h
        refine ⟨hinv, ?_⟩
        have hcard := card_sdiff_cons m visited np
          (mem_boundsFinset_of_not_wall m np hnpw) hnpv
        rw [List.length_append, List.length_singleton] at hmeas
        omega

/-- Full correctness of the BFS `while` loop under the loop invariant:
with fuel above the termination measure it returns either the empty list
with no route existing, or a shortest route from `s` to `goal`. -/
theorem bfs_loop_spec (m : Maze) (hwf : m.wf) (s goal : Pos)
    (hs : m.is_path s.1 s.2 = true) :
    ∀ (fuel : Nat) (queue visited : List Pos) (parent : List (Pos × Option Pos))
      (lens : List Nat),
    BFSInv m s goal queue visited parent lens →
    queue.length + (boundsFinset m \ visited.toFinset).card < fuel →
    (bfsLoop m goal fuel queue visited parent = [] ∧ ∀ r, ¬ IsRoute m s goal r) ∨
    (IsRoute m s goal (bfsLoop m goal fuel queue visited parent) ∧
     ∀ r, IsRoute m s goal r →
        (bfsLoop m goal fuel queue visited parent).length ≤ r.length) := by
  intro fuel
  induction fuel with
  | zero =>
    intro queue visited parent lens _ hlt
    exact absurd hlt (Nat.not_lt_zero _)
  | succ fuel ih =>
    intro queue visited parent lens hinv hlt
    cases queue with
    | nil =>
      left
      refine ⟨rfl, ?_⟩
      intro r hr
      have hclosed : ∀ a ∈ visited, ∀ b ∈ pyNeighbors a,
          m.is_wall b.1 b.2 = false → b ∈ visited := by
        intro a ha
        rcases hinv.hfront a ha with h | h
        · cases h
        · exact h
      have hgv : goal ∈ visited := goal_mem_of_closed m visited hclosed r s goal hr hinv.hsv
      cases hinv.hgq hgv
    | cons current rest =>
      by_cases hcg : current = goal
      · have hres : bfsLoop m goal (fuel + 1) (current :: rest) visited parent =
            reconstructB parent (parent.length + 1) goal [] := by
          simp only [bfsLoop]
          rw [if_pos hcg]
        cases hinv.hpair with
        | cons h1 h2 =>
          rename_i n_c lensRest
          rw [hcg] at h1
          obtain ⟨n', hch', hmn', hbd'⟩ :=
            hinv.hmin goal (by
              rw [← hcg]
              exact hinv.hqv current (List.mem_cons_self _ _))
          have hne : n' = n_c := pchain_unique m parent s goal n' hch' n_c h1
          subst hne
          obtain ⟨r, hr1, hr2, hr3, hr4, hr5, hr6⟩ :=
            reconstructB_spec m parent s goal n' hch' (parent.length + 1) []
              (by omega)
          right
          rw [hres, hr1, List.append_nil]
          refine ⟨⟨hr2, hr3, hr4, ?_⟩, ?_⟩
          · intro q hq
            rcases hr5 q hq with rfl | hqw
            · exact hs
            · exact is_path_of_not_is_wall m hwf q.1 q.2 hqw
          · intro r' hr'
            have := hmn' r' hr'
            omega
      · have hres : bfsLoop m goal (fuel + 1) (current :: rest) visited parent =
            bfsLoop m goal fuel
              (bfsRelax m current (pyNeighbors current) (visited, parent, rest)).2.2
              (bfsRelax m current (pyNeighbors current) (visited, parent, rest)).1
              (bfsRelax m current (pyNeighbors current) (visited, parent, rest)).2.1 := by
          simp only [bfsLoop]
          rw [if_neg hcg]
        have hcv : current ∈ visited := hinv.hqv current (List.mem_cons_self _ _)
        cases hinv.hpair with
        | cons h1 h2 =>
          rename_i n_c lensRest
          obtain ⟨n', hch', hmn', hbd'⟩ := hinv.hmin current hcv
          have hne : n' = n_c := pchain_unique m parent s current n' hch' n_c h1
          subst hne
          obtain ⟨lens', hinv', hmeas⟩ :=
            bfs_relax_spec m s goal current n' (pyNeighbors current) visited parent
              rest lensRest
              (fun b hb => hb)
              hinv.hkeys
              (fun p hp => hinv.hqv p (List.mem_cons_of_mem _ hp))
              hinv.hroot hinv.hsv h2
              (List.pairwise_cons.mp hinv.hsort).2
              (by
                intro a ha
                refine ⟨(List.pairwise_cons.mp hinv.hsort).1 a ha, ?_⟩
                exact hinv.htwo a (List.mem_cons_of_mem _ ha) n'
                  (List.mem_cons_self _ _))
              hinv.hmin
              (by
                intro a ha
                rcases hinv.hfront a ha with h | h
                · rcases List.mem_cons.mp h with rfl | h'
                  · exact Or.inr (Or.inr ⟨rfl, fun b hb => Or.inl hb⟩)
                  · exact Or.inl h'
                · exact Or.inr (Or.inl h))
              (by
                intro hgv
                rcases List.mem_cons.mp (hinv.hgq hgv) with rfl | h'
                · exact absurd rfl hcg
                · exact h')
              hcv h1 hmn' hbd'
          rw [hres]
          refine ih _ _ _ lens' hinv' ?_
          simp only [List.length_cons] at hlt
          omega

/-- Top-level correctness of `BFS.find_path` on Path endpoints: it
returns the empty list exactly when no route exists, and otherwise a
shortest route from `start` to `goal`. -/
theorem bfs_find_path_spec (m : Maze) (hwf : m.wf) (s g : Pos)
    (hs : m.is_path s.1 s.2 = true) (hg : m.is_path g.1 g.2 = true) :
    (BFSFindPath m s g = [] ∧ ∀ r, ¬ IsRoute m s g r) ∨
    (IsRoute m s g (BFSFindPath m s g) ∧
     ∀ r, IsRoute m s g r → (BFSFindPath m s g).length ≤ r.length) := by
  have hguard : (!(m.is_path s.1 s.2) || !(m.is_path g.1 g.2)) = false := by
    rw [hs, hg]
    rfl
  have hres : BFSFindPath m s g =
      bfsLoop m g (m.width * m.height + 2) [s] [s] [(s, none)] := by
    unfold BFSFindPath
    rw [if_neg (by rw [hguard]; exact Bool.false_ne_true)]
  have hroot0 : alookup [((s : Pos), (none : Option Pos))] s = some none := by
    show (if s = s then some (none : Option Pos) else none) = some none
    rw [if_pos rfl]
  have hinv : BFSInv m s g [s] [s] [(s, none)] [0] := by
    refine ⟨?_, ?_, hroot0, List.mem_singleton.mpr rfl, ?_, ?_, ?_, ?_, ?_, ?_⟩
    · intro p
      show p ∈ [s] ↔ (if p = s then some (none : Option Pos) else none).isSome
      by_cases hp : p = s
      · subst hp
        simp
      · rw [if_neg hp]
        simp [hp]
    · intro p hp
      exact hp
    · exact List.Forall₂.cons (PChain.base hroot0) List.Forall₂.nil
    · exact List.pairwise_singleton _ _
    · intro a ha b hb
      rw [List.mem_singleton] at ha
      omega
    · intro p hp
      rw [List.mem_singleton] at hp
      subst hp
      refine ⟨0, PChain.base hroot0, ?_, by simp⟩
      intro r hr
      cases r with
      | nil => cases hr.1
      | cons x t =>
        simp only [List.length_cons]
        omega
    · intro a ha
      exact Or.inl ha
    · exact fun h => h
  have hmeas : ([s] : List Pos).length +
      (boundsFinset m \ ([s] : List Pos).toFinset).card < m.width * m.height + 2 := by
    have h1 : (boundsFinset m \ ([s] : List Pos).toFinset).card ≤
        (boundsFinset m).card := Finset.card_le_card Finset.sdiff_subset
    rw [card_boundsFinset] at h1
    simp only [List.length_singleton]
    omega
  rw [hres]
  exact bfs_loop_spec m hwf s g hs (m.width * m.height + 2) [s] [s] [(s, none)] [0]
    hinv hmeas

/-! ## CPython heapq: the sift operations permute the heap -/

/-- Overwriting index `k` while re-inserting the old element in front is
a permutation of inserting the new element in front. -/
theorem perm_getD_set {α : Type} (d : α) :
    ∀ (t : List α) (k : Nat), k < t.length → ∀ x : α,
    List.Perm (t.getD k d :: t.set k x) (x :: t) := by
  intro t
  induction t with
  | nil =>
    intro k hk
    cases hk
  | cons b t' ih =>
    intro k hk x
    cases k with
    | zero =>
      exact List.Perm.swap x b t'
    | succ k' =>
      have h1 : (b :: t').getD (k' + 1) d = t'.getD k' d := rfl
      have h2 : (b :: t').set (k' + 1) x = b :: t'.set k' x := rfl
      rw [h1, h2]
      refine List.Perm.trans (List.Perm.swap b (t'.getD k' d) (t'.set k' x)) ?_
      refine List.Perm.trans (List.Perm.cons b (ih k' (by
        simp only [List.length_cons] at hk
        omega) x)) ?_
      exact List.Perm.swap x b t'

/-- Rewriting an index with its own content is a permutation identity. -/
theorem perm_set_self {α : Type} (d : α) (l : List α) (k : Nat) (hk : k < l.length) :
    List.Perm (l.set k (l.getD k d)) l :=
  List.Perm.cons_inv (perm_getD_set d l k hk (l.getD k d))

/-- Moving the content of index `j` to index `i` and then overwriting
index `j` permutes to overwriting index `i` directly. -/
theorem perm_set_set {α : Type} (d : α) (l : List α) (i j : Nat) (hij : i ≠ j)
    (hi : i < l.length) (hj : j < l.length) (x : α) :
    List.Perm ((l.set i (l.getD j d)).set j x) (l.set i x) := by
  have hlen1 : (l.set i (l.getD j d)).length = l.length := List.length_set l i _
  have hgd : (l.set i (l.getD j d)).getD j d = l.getD j d := by
    rw [getD_set]
    rw [if_neg (by
      rintro ⟨h1, _⟩
      exact hij h1.symm)]
  have A1 : List.Perm (l.getD j d :: (l.set i (l.getD j d)).set j x)
      (x :: l.set i (l.getD j d)) := by
    have := perm_getD_set d (l.set i (l.getD j d)) j (by omega) x
    rw [hgd] at this
    exact this
  have A2 : List.Perm (l.getD i d :: l.set i (l.getD j d)) (l.getD j d :: l) :=
    perm_getD_set d l i hi (l.getD j d)
  have A3 : List.Perm (l.getD i d :: l.set i x) (x :: l) :=
    perm_getD_set d l i hi x
  have main : List.Perm (l.getD i d :: l.getD j d :: (l.set i (l.getD j d)).set j x)
      (l.getD i d :: l.getD j d :: l.set i x) := by
    refine List.Perm.trans (List.Perm.cons _ A1) ?_
    refine List.Perm.trans (List.Perm.swap _ _ _) ?_
    refine List.Perm.trans (List.Perm.cons _ A2) ?_
    refine List.Perm.trans (List.Perm.swap _ _ _) ?_
    refine List.Perm.trans (List.Perm.cons _ A3.symm) ?_
    exact List.Perm.swap _ _ _
  exact List.Perm.cons_inv (List.Perm.cons_inv main)

/-- `heapq._siftdown`'s bubble-up loop permutes the heap with the new
item written at the starting hole. -/
theorem siftdownAux_perm (arena : List ANode) (startpos : Nat) :
    ∀ (fuel : Nat) (heap : List Nat) (pos newitem : Nat), pos < heap.length →
    List.Perm (siftdownAux arena heap startpos pos newitem fuel)
      (heap.set pos newitem) := by
  intro fuel
  induction fuel with
  | zero =>
    intro heap pos newitem _
    exact List.Perm.refl _
  | succ fuel ih =>
    intro heap pos newitem hpos
    show List.Perm
      (if startpos < pos then
        if nodeLt arena newitem (heap.getD ((pos - 1) / 2) 0) then
          siftdownAux arena (heap.set pos (heap.getD ((pos - 1) / 2) 0)) startpos
            ((pos - 1) / 2) newitem fuel
        else heap.set pos newitem
      else heap.set pos newitem) _
    by_cases hsp : startpos < pos
    · rw [if_pos hsp]
      by_cases hlt : nodeLt arena newitem (heap.getD ((pos - 1) / 2) 0) = true
      · rw [if_pos hlt]
        have hpp : (pos - 1) / 2 < pos := by omega
        have hpl : (pos - 1) / 2 < (heap.set pos (heap.getD ((pos - 1) / 2) 0)).length := by
          rw [List.length_set]
          omega
        refine List.Perm.trans (ih _ _ newitem hpl) ?_
        exact perm_set_set 0 heap pos ((pos - 1) / 2) (by omega) hpos (by omega) newitem
      · rw [if_neg hlt]
    · rw [if_neg hsp]

/-- `heapq._siftdown` permutes the heap. -/
theorem siftdown_perm (arena : List ANode) (heap : List Nat) (startpos pos : Nat)
    (hpos : pos < heap.length) :
    List.Perm (siftdown arena heap startpos pos) heap := by
  refine List.Perm.trans (siftdownAux_perm arena startpos (pos + 1) heap pos
    (heap.getD pos 0) hpos) ?_
  exact perm_set_self 0 heap pos hpos

/-- The walk-down loop of `heapq._siftup`: the final hole position is in
range, the length is unchanged, and writing any value into the final
hole permutes to writing it into the original hole. -/
theorem siftupAux_spec (arena : List ANode) :
    ∀ (fuel : Nat) (heap : List Nat) (pos : Nat), pos < heap.length →
    (siftupAux arena heap pos fuel).2 < (siftupAux arena heap pos fuel).1.length ∧
    (siftupAux arena heap pos fuel).1.length = heap.length ∧
    ∀ x : Nat, List.Perm ((siftupAux arena heap pos fuel).1.set
      (siftupAux arena heap pos fuel).2 x) (heap.set pos x) := by
  intro fuel
  induction fuel with
  | zero =>
    intro heap pos hpos
    exact ⟨hpos, rfl, fun x => List.Perm.refl _⟩
  | succ fuel ih =>
    intro heap pos hpos
    by_cases hchild : 2 * pos + 1 < heap.length
    · by_cases hc : 2 * pos + 1 + 1 < heap.length ∧
          ¬ nodeLt arena (heap.getD (2 * pos + 1) 0) (heap.getD (2 * pos + 1 + 1) 0) = true
      · have hstep : siftupAux arena heap pos (fuel + 1) =
            siftupAux arena (heap.set pos (heap.getD (2 * pos + 1 + 1) 0))
              (2 * pos + 1 + 1) fuel := by
          simp only [siftupAux]
          rw [if_pos hchild, if_pos hc]
        rw [hstep]
        have hcpl : 2 * pos + 1 + 1 <
            (heap.set pos (heap.getD (2 * pos + 1 + 1) 0)).length := by
          rw [List.length_set]
          exact hc.1
        obtain ⟨h1, h2, h3⟩ := ih (heap.set pos (heap.getD (2 * pos + 1 + 1) 0))
          (2 * pos + 1 + 1) hcpl
        refine ⟨h1, by rw [h2, List.length_set], ?_⟩
        intro x
        refine List.Perm.trans (h3 x) ?_
        exact perm_set_set 0 heap pos (2 * pos + 1 + 1) (by omega) hpos hc.1 x
      · have hstep : siftupAux arena heap pos (fuel + 1) =
            siftupAux arena (heap.set pos (heap.getD (2 * pos + 1) 0))
              (2 * pos + 1) fuel := by
          simp only [siftupAux]
          rw [if_pos hchild, if_neg hc]
        rw [hstep]
        have hcpl : 2 * pos + 1 <
            (heap.set pos (heap.getD (2 * pos + 1) 0)).length := by
          rw [List.length_set]
          exact hchild
        obtain ⟨h1, h2, h3⟩ := ih (heap.set pos (heap.getD (2 * pos + 1) 0))
          (2 * pos + 1) hcpl
        refine ⟨h1, by rw [h2, List.length_set], ?_⟩
        intro x
        refine List.Perm.trans (h3 x) ?_
        exact perm_set_set 0 heap pos (2 * pos + 1) (by omega) hpos hchild x
    · have hstep : siftupAux arena heap pos (fuel + 1) = (heap, pos) := by
        simp only [siftupAux]
        rw [if_neg hchild]
      rw [hstep]
      exact ⟨hpos, rfl, fun x => List.Perm.refl _⟩

/-- `heapq._siftup` permutes the heap. -/
theorem siftup_perm (arena : List ANode) (heap : List Nat) (pos : Nat)
    (hpos : pos < heap.length) :
    List.Perm (siftup arena heap pos) heap := by
  obtain ⟨h1, h2, h3⟩ := siftupAux_spec arena (heap.length + 1) heap pos hpos
  refine List.Perm.trans (siftdownAux_perm arena pos _ _ _ (heap.getD pos 0) h1) ?_
  refine List.Perm.trans (h3 (heap.getD pos 0)) ?_
  exact perm_set_self 0 heap pos hpos

/-- `heapq.heappush` permutes to consing the new item. -/
theorem heappush_perm (arena : List ANode) (heap : List Nat) (item : Nat) :
    List.Perm (heappush arena heap item) (item :: heap) := by
  have hlen : (heap ++ [item]).length - 1 < (heap ++ [item]).length := by
    rw [List.length_append, List.length_singleton]
    omega
  refine List.Perm.trans (siftdown_perm arena (heap ++ [item]) 0 _ hlen) ?_
  exact List.perm_append_singleton item heap

/-- `heapq.heappop` on a nonempty heap permutes to removing the returned
element. -/
theorem heappop_perm (arena : List ANode) (heap : List Nat) (hne : heap ≠ []) :
    List.Perm ((heappop arena heap).1 :: (heappop arena heap).2) heap := by
  cases heap with
  | nil => exact absurd rfl hne
  | cons a t =>
    cases ht : t.getLast? with
    | none =>
      rw [List.getLast?_eq_none_iff] at ht
      subst ht
      exact List.Perm.refl _
    | some b =>
      have htne : t ≠ [] := by
        rintro rfl
        cases ht
      have hlast : (a :: t).getLast?.getD 0 = (a :: t).getLast (List.cons_ne_nil a t) := by
        rw [List.getLast?_eq_getLast _ (List.cons_ne_nil a t)]
        rfl
      have hdne : (a :: t).dropLast ≠ [] := by
        rw [List.dropLast_cons_of_ne_nil htne]
        exact List.cons_ne_nil _ _
      have hres : heappop arena (a :: t) =
          ((a :: t).dropLast.getD 0 0,
            siftup arena ((a :: t).dropLast.set 0 ((a :: t).getLast?.getD 0)) 0) := by
        unfold heappop
        rw [if_neg (by
          rw [List.isEmpty_iff]
          exact hdne)]
      rw [hres]
      have hlen0 : 0 < (a :: t).dropLast.length := List.length_pos.mpr hdne
      have hlenset : 0 < ((a :: t).dropLast.set 0 ((a :: t).getLast?.getD 0)).length := by
        rw [List.length_set]
        exact hlen0
      refine List.Perm.trans (List.Perm.cons _ (siftup_perm arena _ 0 hlenset)) ?_
      refine List.Perm.trans (perm_getD_set 0 (a :: t).dropLast 0 hlen0 _) ?_
      rw [hlast]
      refine List.Perm.trans (List.perm_append_singleton _ _).symm ?_
      rw [List.dropLast_append_getLast (List.cons_ne_nil a t)]

/-- Position of the first occurrence of `p` in the closed list (the
close-order rank used to show parent chains terminate). -/
def cIndex : List Pos → Pos → Nat
  | [], _ => 0
  | q :: rest, p => if p = q then 0 else cIndex rest p + 1

/-- A member's rank is below the list length. -/
theorem cIndex_lt_length : ∀ (C : List Pos) (p : Pos), p ∈ C → cIndex C p < C.length := by
  intro C
  induction C with
  | nil =>
    intro p hp
    cases hp
  | cons q rest ih =>
    intro p hp
    show (if p = q then 0 else cIndex rest p + 1) < rest.length + 1
    by_cases hpq : p = q
    · rw [if_pos hpq]
      omega
    · rw [if_neg hpq]
      have := ih p (by
        rcases List.mem_cons.mp hp with h | h
        · exact absurd h hpq
        · exact h)
      omega

/-- Ranks of existing members survive appending. -/
theorem cIndex_append_of_mem :
    ∀ (C : List Pos) (p : Pos), p ∈ C → ∀ l, cIndex (C ++ l) p = cIndex C p := by
  intro C
  induction C with
  | nil =>
    intro p hp
    cases hp
  | cons q rest ih =>
    intro p hp l
    show (if p = q then 0 else cIndex (rest ++ l) p + 1) =
      (if p = q then 0 else cIndex rest p + 1)
    by_cases hpq : p = q
    · rw [if_pos hpq, if_pos hpq]
    · rw [if_neg hpq, if_neg hpq, ih p (by
        rcases List.mem_cons.mp hp with h | h
        · exact absurd h hpq
        · exact h) l]

/-- A freshly appended element ranks last. -/
theorem cIndex_append_self :
    ∀ (C : List Pos) (p : Pos), p ∉ C → cIndex (C ++ [p]) p = C.length := by
  intro C
  induction C with
  | nil =>
    intro p _
    show (if p = p then 0 else cIndex [] p + 1) = 0
    rw [if_pos rfl]
  | cons q rest ih =>
    intro p hp
    show (if p = q then 0 else cIndex (rest ++ [p]) p + 1) = rest.length + 1
    rw [if_neg (by
        rintro rfl
        exact hp (List.mem_cons_self _ _)),
      ih p (fun h => hp (List.mem_cons_of_mem _ h))]

/-- Reading an index of a one-element extension. -/
theorem getD_concat {α : Type} (l : List α) (x d : α) (i : Nat) :
    (l ++ [x]).getD i d = if i < l.length then l.getD i d else
      if i = l.length then x else d := by
  by_cases hi : i < l.length
  · rw [if_pos hi, List.getD_eq_getElem?_getD, List.getElem?_append_left hi,
      ← List.getD_eq_getElem?_getD]
  · rw [if_neg hi]
    by_cases he : i = l.length
    · subst he
      rw [List.getD_eq_getElem?_getD, List.getElem?_append_right (le_refl _)]
      simp
    · rw [if_neg he, List.getD_eq_getElem?_getD, List.getElem?_append_right (by omega)]
      have : i - l.length ≥ 1 := by omega
      rw [List.getElem?_eq_none (by
        rw [List.length_singleton]
        omega)]
      simp

/-- A dict lookup succeeds exactly on stored keys. -/
theorem alookup_isSome_iff {β : Type} :
    ∀ (D : List (Pos × β)) (p : Pos), (alookup D p).isSome ↔ p ∈ D.map Prod.fst := by
  intro D
  induction D with
  | nil =>
    intro p
    simp [alookup]
  | cons kv rest ih =>
    intro p
    obtain ⟨k, v⟩ := kv
    show (if p = k then some v else alookup rest p).isSome ↔
      p ∈ k :: rest.map Prod.fst
    by_cases hpk : p = k
    · subst hpk
      simp
    · rw [if_neg hpk]
      simp only [List.mem_cons, hpk, false_or]
      exact ih p

/-- Membership in a pushed heap. -/
theorem mem_heappush (arena : List ANode) (heap : List Nat) (item j : Nat) :
    j ∈ heappush arena heap item ↔ j = item ∨ j ∈ heap := by
  rw [(heappush_perm arena heap item).mem_iff]
  simp

/-- Length of a pushed heap. -/
theorem length_heappush (arena : List ANode) (heap : List Nat) (item : Nat) :
    (heappush arena heap item).length = heap.length + 1 := by
  rw [(heappush_perm arena heap item).length_eq]
  rfl

/-- A pushed heap of a fresh item stays duplicate-free. -/
theorem nodup_heappush (arena : List ANode) (heap : List Nat) (item : Nat)
    (hni : item ∉ heap) (hnd : heap.Nodup) :
    (heappush arena heap item).Nodup := by
  rw [(heappush_perm arena heap item).nodup_iff]
  exact List.nodup_cons.mpr ⟨hni, hnd⟩

/-- The popped element belongs to the heap. -/
theorem heappop_fst_mem (arena : List ANode) (heap : List Nat) (hne : heap ≠ []) :
    (heappop arena heap).1 ∈ heap :=
  (heappop_perm arena heap hne).mem_iff.mp (List.mem_cons_self _ _)

/-- The remaining heap is drawn from the original heap. -/
theorem heappop_snd_subset (arena : List ANode) (heap : List Nat) (hne : heap ≠ [])
    (j : Nat) (hj : j ∈ (heappop arena heap).2) : j ∈ heap :=
  (heappop_perm arena heap hne).mem_iff.mp (List.mem_cons_of_mem _ hj)

/-- Every heap element is the popped one or remains. -/
theorem heappop_cover (arena : List ANode) (heap : List Nat) (hne : heap ≠ [])
    (j : Nat) (hj : j ∈ heap) :
    j = (heappop arena heap).1 ∨ j ∈ (heappop arena heap).2 :=
  List.mem_cons.mp ((heappop_perm arena heap hne).mem_iff.mpr hj)

/-- Popping shortens the heap by one. -/
theorem heappop_length (arena : List ANode) (heap : List Nat) (hne : heap ≠ []) :
    (heappop arena heap).2.length + 1 = heap.length := by
  have := (heappop_perm arena heap hne).length_eq
  simp only [List.length_cons] at this
  omega

/-- Popping a duplicate-free heap: the popped element does not remain
and the rest stays duplicate-free. -/
theorem heappop_nodup (arena : List ANode) (heap : List Nat) (hne : heap ≠ [])
    (hnd : heap.Nodup) :
    (heappop arena heap).1 ∉ (heappop arena heap).2 ∧ (heappop arena heap).2.Nodup := by
  have := ((heappop_perm arena heap hne).nodup_iff).mpr hnd
  exact List.nodup_cons.mp this

/-- Loop invariant of `AStar.find_path`.  Node positions never change
after creation; parents always point at already-closed nodes, whose
fields are frozen, and close-order ranks strictly decrease along parent
links, so parent chains terminate at the start node (the only node whose
parent is `None`, since tentative costs are always positive while its
`g_cost` is `0`). -/
structure AInvCore (m : Maze) (s goal : Pos) (st : AState) : Prop where
  hlen0 : 0 < st.arena.length
  hpos0 : (st.arena.getD 0 default).position = s
  hpar0 : (st.arena.getD 0 default).parent = none
  hg0 : (st.arena.getD 0 default).g_cost = 0
  hdictA : ∀ p i, alookup st.dict p = some i →
    i < st.arena.length ∧ (st.arena.getD i default).position = p
  hAdict : ∀ i, i < st.arena.length →
    alookup st.dict ((st.arena.getD i default).position) = some i
  hheap : ∀ j ∈ st.openh, j < st.arena.length
  hnodup : st.openh.Nodup
  hcover : ∀ i, i < st.arena.length →
    (st.arena.getD i default).position ∈ st.closed ∨ i ∈ st.openh
  hopenC : ∀ j ∈ st.openh, (st.arena.getD j default).position ∉ st.closed
  hclosedD : ∀ p ∈ st.closed, (alookup st.dict p).isSome
  hCnodup : st.closed.Nodup
  hgoalC : goal ∉ st.closed
  hpnone : ∀ i, i < st.arena.length → (st.arena.getD i default).parent = none → i = 0
  hpsome : ∀ i j, i < st.arena.length → (st.arena.getD i default).parent = some j →
    j < st.arena.length ∧ (st.arena.getD j default).position ∈ st.closed ∧
    (st.arena.getD i default).position ∈
      pyNeighbors ((st.arena.getD j default).position) ∧
    m.is_wall (st.arena.getD i default).position.1
      (st.arena.getD i default).position.2 = false
  hrank : ∀ i j, i < st.arena.length →
    (st.arena.getD i default).position ∈ st.closed →
    (st.arena.getD i default).parent = some j →
    cIndex st.closed ((st.arena.getD j default).position) <
      cIndex st.closed ((st.arena.getD i default).position)

/-- The full loop invariant: the core plus the frontier property (every
non-wall neighbour of a closed cell is in the node dictionary). -/
def AInv (m : Maze) (s goal : Pos) (st : AState) : Prop :=
  AInvCore m s goal st ∧
  ∀ p ∈ st.closed, ∀ b ∈ pyNeighbors p,
    m.is_wall b.1 b.2 = false → (alookup st.dict b).isSome

/-- Termination measure of the A* loop: open entries plus undiscovered
in-bounds cells.  Popping decreases it by one and each node creation
preserves it. -/
def aMeasure (m : Maze) (st : AState) : Nat :=
  st.openh.length + (boundsFinset m \ (st.dict.map Prod.fst).toFinset).card

/-- Correctness of `AStar._reconstruct_path` under the parent-chain
invariants: with fuel above the close-order rank bound it prepends a
4-neighbour chain from `s` to node `i`'s position. -/
theorem reconstructA_spec (m : Maze) (s : Pos) (A : List ANode) (C : List Pos)
    (hpos0 : (A.getD 0 default).position = s)
    (hpn : ∀ i, i < A.length → (A.getD i default).parent = none → i = 0)
    (hps : ∀ i j, i < A.length → (A.getD i default).parent = some j →
      j < A.length ∧ (A.getD j default).position ∈ C ∧
      (A.getD i default).position ∈ pyNeighbors ((A.getD j default).position) ∧
      m.is_wall (A.getD i default).position.1
        (A.getD i default).position.2 = false)
    (hrk : ∀ i j, i < A.length → (A.getD i default).position ∈ C →
      (A.getD i default).parent = some j →
      cIndex C ((A.getD j default).position) <
        cIndex C ((A.getD i default).position)) :
    ∀ (k i : Nat), i < A.length →
    (∀ j, (A.getD i default).parent = some j →
      cIndex C ((A.getD j default).position) < k) →
    ∀ (fuel : Nat), k < fuel → ∀ acc : List Pos,
    ∃ r : List Pos, reconstructA A fuel i acc = r ++ acc ∧ r.head? = some s ∧
      r.getLast? = some ((A.getD i default).position) ∧
      r.Chain' (fun a b => b ∈ pyNeighbors a) ∧
      (∀ q ∈ r, q = s ∨ m.is_wall q.1 q.2 = false) ∧ r ≠ [] := by
  intro k
  induction k with
  | zero =>
    intro i hi hbound fuel hfuel acc
    obtain ⟨f', rfl⟩ : ∃ f, fuel = f + 1 := ⟨fuel - 1, by omega⟩
    cases hp : (A.getD i default).parent with
    | some j => exact absurd (hbound j hp) (Nat.not_lt_zero _)
    | none =>
      have hi0 := hpn i hi hp
      subst hi0
      refine ⟨[s], ?_, rfl, ?_, List.chain'_singleton _, ?_, by simp⟩
      · show (match (A.getD 0 default).parent with
          | none => (A.getD 0 default).position :: acc
          | some j => reconstructA A f' j ((A.getD 0 default).position :: acc)) =
          [s] ++ acc
        rw [hp, hpos0]
        rfl
      · rw [hpos0]
        rfl
      · intro q hq
        rw [List.mem_singleton] at hq
        exact Or.inl hq
  | succ k ih =>
    intro i hi hbound fuel hfuel acc
    obtain ⟨f', rfl⟩ : ∃ f, fuel = f + 1 := ⟨fuel - 1, by omega⟩
    cases hp : (A.getD i default).parent with
    | none =>
      have hi0 := hpn i hi hp
      subst hi0
      refine ⟨[s], ?_, rfl, ?_, List.chain'_singleton _, ?_, by simp⟩
      · show (match (A.getD 0 default).parent with
          | none => (A.getD 0 default).position :: acc
          | some j => reconstructA A f' j ((A.getD 0 default).position :: acc)) =
          [s] ++ acc
        rw [hp, hpos0]
        rfl
      · rw [hpos0]
        rfl
      · intro q hq
        rw [List.mem_singleton] at hq
        exact Or.inl hq
    | some j =>
      obtain ⟨hj, hjC, hnb, hw⟩ := hps i j hi hp
      have hbound' : ∀ j', (A.getD j default).parent = some j' →
          cIndex C ((A.getD j' default).position) < k := by
        intro j' hp'
        have h1 := hrk j j' hj hjC hp'
        have h2 := hbound j hp
        omega
      obtain ⟨r', he', hh', hl', hc', hcl', hne'⟩ :=
        ih j hj hbound' f' (by omega) ((A.getD i default).position :: acc)
      have hstep : reconstructA A (f' + 1) i acc =
          reconstructA A f' j ((A.getD i default).position :: acc) := by
        show (match (A.getD i default).parent with
          | none => (A.getD i default).position :: acc
          | some j2 => reconstructA A f' j2 ((A.getD i default).position :: acc)) = _
        rw [hp]
      refine ⟨r' ++ [(A.getD i default).position], ?_, ?_, ?_, ?_, ?_, by simp⟩
      · rw [hstep, he', List.append_assoc]
        rfl
      · cases r' with
        | nil => exact absurd rfl hne'
        | cons a t => exact hh'
      · rw [List.getLast?_concat]
      · rw [List.chain'_append]
        refine ⟨hc', List.chain'_singleton _, ?_⟩
        intro x hx y hy
        rw [hl'] at hx
        simp only [List.head?_cons, Option.mem_def, Option.some.injEq] at hx hy
        subst hx
        rw [← hy]
        exact hnb
      · intro q hq
        rcases List.mem_append.mp hq with hq | hq
        · exact hcl' q hq
        · rw [List.mem_singleton] at hq
          subst hq
          exact Or.inr hw

/-- The closed set cannot outgrow the arena: closed positions inject
into arena indices through the node dictionary. -/
theorem closed_card_le (A : List ANode) (D : List (Pos × Nat)) (C : List Pos)
    (hCnodup : C.Nodup)
    (hclosedD : ∀ p ∈ C, (alookup D p).isSome)
    (hdictA : ∀ p i, alookup D p = some i →
      i < A.length ∧ (A.getD i default).position = p) :
    C.length ≤ A.length := by
  classical
  rw [← List.toFinset_card_of_nodup hCnodup]
  have h : C.toFinset.card ≤ (Finset.range A.length).card := by
    apply Finset.card_le_card_of_injOn (fun p => (alookup D p).getD 0)
    · intro p hp
      rw [List.mem_toFinset] at hp
      obtain ⟨i, hi⟩ := Option.isSome_iff_exists.mp (hclosedD p hp)
      rw [hi]
      simp only [Option.getD_some, Finset.mem_range]
      exact (hdictA p i hi).1
    · intro p1 hp1 p2 hp2 he
      rw [Finset.mem_coe, List.mem_toFinset] at hp1 hp2
      obtain ⟨i1, hi1⟩ := Option.isSome_iff_exists.mp (hclosedD p1 hp1)
      obtain ⟨i2, hi2⟩ := Option.isSome_iff_exists.mp (hclosedD p2 hp2)
      simp only [hi1, hi2, Option.getD_some] at he
      subst he
      rw [← (hdictA p1 i1 hi1).2, ← (hdictA p2 i1 hi2).2]
  simpa using h

/-- The in-place decrease-key mutation of `AStar.find_path` (lines
119-123) preserves the core invariant: it rewrites `g_cost`/`f_cost`/
`parent` of an open (non-closed, non-start) node, pointing its parent at
the just-closed `current` node. -/
theorem astar_mutate_inv (m : Maze) (s goal : Pos) (st : AState) (curIdx nIdx : Nat)
    (np : Pos) (hinv : AInvCore m s goal st)
    (hdict : alookup st.dict np = some nIdx)
    (hnpC : np ∉ st.closed)
    (hnpw : m.is_wall np.1 np.2 = false)
    (hcur : curIdx < st.arena.length)
    (hcurC : (st.arena.getD curIdx default).position ∈ st.closed)
    (hnb : np ∈ pyNeighbors ((st.arena.getD curIdx default).position))
    (node' : ANode)
    (hn1 : node'.position = np) (hn2 : node'.parent = some curIdx)
    (hnIdx0 : nIdx ≠ 0) :
    AInvCore m s goal { st with arena := st.arena.set nIdx node' } := by
  have hnlen : nIdx < st.arena.length := (hinv.hdictA np nIdx hdict).1
  have hposn : (st.arena.getD nIdx default).position = np := (hinv.hdictA np nIdx hdict).2
  have hgetD : ∀ i : Nat, (st.arena.set nIdx node').getD i default =
      if i = nIdx then node' else st.arena.getD i default := by
    intro i
    rw [getD_set]
    by_cases h : i = nIdx
    · rw [if_pos ⟨h, hnlen⟩, if_pos h]
    · rw [if_neg (by
        rintro ⟨h1, _⟩
        exact h h1), if_neg h]
  have hposeq : ∀ i : Nat, ((st.arena.set nIdx node').getD i default).position =
      (st.arena.getD i default).position := by
    intro i
    rw [hgetD]
    by_cases h : i = nIdx
    · rw [if_pos h, hn1, h, hposn]
    · rw [if_neg h]
  refine ⟨?_, ?_, ?_, ?_, ?_, ?_, ?_, ?_, ?_, ?_, ?_, ?_, ?_, ?_, ?_, ?_⟩
  · show 0 < (st.arena.set nIdx node').length
    rw [List.length_set]
    exact hinv.hlen0
  · show ((st.arena.set nIdx node').getD 0 default).position = s
    rw [hposeq]
    exact hinv.hpos0
  · show ((st.arena.set nIdx node').getD 0 default).parent = none
    rw [hgetD, if_neg (fun h => hnIdx0 h.symm)]
    exact hinv.hpar0
  · show ((st.arena.set nIdx node').getD 0 default).g_cost = 0
    rw [hgetD, if_neg (fun h => hnIdx0 h.symm)]
    exact hinv.hg0
  · intro p i hp
    obtain ⟨h1, h2⟩ := hinv.hdictA p i hp
    refine ⟨by rw [List.length_set]; exact h1, ?_⟩
    rw [hposeq]
    exact h2
  · intro i hi
    rw [List.length_set] at hi
    rw [hposeq]
    exact hinv.hAdict i hi
  · intro j hj
    rw [List.length_set]
    exact hinv.hheap j hj
  · exact hinv.hnodup
  · intro i hi
    rw [List.length_set] at hi
    rw [hposeq]
    exact hinv.hcover i hi
  · intro j hj
    rw [hposeq]
    exact hinv.hopenC j hj
  · exact hinv.hclosedD
  · exact hinv.hCnodup
  · exact hinv.hgoalC
  · intro i hi hp
    rw [List.length_set] at hi
    rw [hgetD] at hp
    by_cases h : i = nIdx
    · rw [if_pos h, hn2] at hp
      cases hp
    · rw [if_neg h] at hp
      exact hinv.hpnone i hi hp
  · intro i j hi hp
    rw [List.length_set] at hi
    rw [hgetD] at hp
    by_cases h : i = nIdx
    · rw [if_pos h, hn2] at hp
      obtain rfl : curIdx = j := by
        cases hp
        rfl
      refine ⟨by rw [List.length_set]; exact hcur, ?_, ?_, ?_⟩
      · rw [hposeq]
        exact hcurC
      · rw [hposeq, hposeq, h, hposn]
        exact hnb
      · rw [hposeq, h, hposn]
        exact hnpw
    · rw [if_neg h] at hp
      obtain ⟨h1, h2, h3, h4⟩ := hinv.hpsome i j hi hp
      refine ⟨by rw [List.length_set]; exact h1, ?_, ?_, ?_⟩
      · rw [hposeq]
        exact h2
      · rw [hposeq, hposeq]
        exact h3
      · rw [hposeq]
        exact h4
  · intro i j hi hiC hp
    rw [List.length_set] at hi
    rw [hposeq] at hiC
    rw [hgetD] at hp
    by_cases h : i = nIdx
    · rw [h, hposn] at hiC
      exact absurd hiC hnpC
    · rw [if_neg h] at hp
      rw [hposeq, hposeq]
      exact hinv.hrank i j hi hiC hp

/-- Creating a new node for an undiscovered neighbour (lines 124-129)
preserves the core invariant: the node is appended to the arena, keyed
in the dictionary, and pushed onto the open heap. -/
theorem astar_newnode_inv (m : Maze) (s goal : Pos) (st : AState) (curIdx : Nat)
    (np : Pos) (hinv : AInvCore m s goal st)
    (hdict : alookup st.dict np = none)
    (hnpC : np ∉ st.closed)
    (hnpw : m.is_wall np.1 np.2 = false)
    (hcur : curIdx < st.arena.length)
    (hcurC : (st.arena.getD curIdx default).position ∈ st.closed)
    (hnb : np ∈ pyNeighbors ((st.arena.getD curIdx default).position))
    (node : ANode)
    (hn1 : node.position = np) (hn2 : node.parent = some curIdx) :
    AInvCore m s goal
      { arena := st.arena ++ [node],
        openh := heappush (st.arena ++ [node]) st.openh st.arena.length,
        closed := st.closed,
        dict := (np, st.arena.length) :: st.dict } := by
  have hgetD : ∀ i : Nat, i < st.arena.length →
      (st.arena ++ [node]).getD i default = st.arena.getD i default := by
    intro i hi
    rw [getD_concat, if_pos hi]
  have hgetL : (st.arena ++ [node]).getD st.arena.length default = node := by
    rw [getD_concat, if_neg (by omega), if_pos rfl]
  have hlk : ∀ p : Pos, alookup ((np, st.arena.length) :: st.dict) p =
      if p = np then some st.arena.length else alookup st.dict p := fun p => rfl
  have hmono : ∀ p : Pos, (alookup st.dict p).isSome →
      (alookup ((np, st.arena.length) :: st.dict) p).isSome := by
    intro p h
    rw [hlk]
    by_cases hp : p = np
    · rw [if_pos hp]
      rfl
    · rw [if_neg hp]
      exact h
  have hlen : (st.arena ++ [node]).length = st.arena.length + 1 := by
    rw [List.length_append, List.length_singleton]
  refine ⟨?_, ?_, ?_, ?_, ?_, ?_, ?_, ?_, ?_, ?_, ?_, ?_, ?_, ?_, ?_, ?_⟩
  · show 0 < (st.arena ++ [node]).length
    rw [hlen]
    omega
  · show ((st.arena ++ [node]).getD 0 default).position = s
    rw [hgetD 0 hinv.hlen0]
    exact hinv.hpos0
  · show ((st.arena ++ [node]).getD 0 default).parent = none
    rw [hgetD 0 hinv.hlen0]
    exact hinv.hpar0
  · show ((st.arena ++ [node]).getD 0 default).g_cost = 0
    rw [hgetD 0 hinv.hlen0]
    exact hinv.hg0
  · intro p i hp
    rw [hlk] at hp
    by_cases hpe : p = np
    · rw [if_pos hpe] at hp
      obtain rfl : st.arena.length = i := by
        cases hp
        rfl
      refine ⟨by dsimp only; omega, ?_⟩
      rw [hgetL, hn1, hpe]
    · rw [if_neg hpe] at hp
      obtain ⟨h1, h2⟩ := hinv.hdictA p i hp
      refine ⟨by dsimp only; omega, ?_⟩
      rw [hgetD i h1]
      exact h2
  · intro i hi
    rw [hlen] at hi
    by_cases hie : i = st.arena.length
    · subst hie
      rw [hgetL, hn1, hlk, if_pos rfl]
    · have hi' : i < st.arena.length := by dsimp only; omega
      rw [hgetD i hi', hlk, if_neg (by
        intro hcon
        have := hinv.hAdict i hi'
        rw [hcon, hdict] at this
        cases this)]
      exact hinv.hAdict i hi'
  · intro j hj
    rw [mem_heappush] at hj
    rw [hlen]
    rcases hj with rfl | hj
    · omega
    · have := hinv.hheap j hj
      omega
  · refine nodup_heappush _ _ _ ?_ hinv.hnodup
    intro hcon
    have := hinv.hheap _ hcon
    omega
  · intro i hi
    rw [hlen] at hi
    by_cases hie : i = st.arena.length
    · subst hie
      exact Or.inr ((mem_heappush _ _ _ _).mpr (Or.inl rfl))
    · have hi' : i < st.arena.length := by dsimp only; omega
      rw [hgetD i hi']
      rcases hinv.hcover i hi' with h | h
      · exact Or.inl h
      · exact Or.inr ((mem_heappush _ _ _ _).mpr (Or.inr h))
  · intro j hj
    rw [mem_heappush] at hj
    rcases hj with rfl | hj
    · rw [hgetL, hn1]
      exact hnpC
    · rw [hgetD j (hinv.hheap j hj)]
      exact hinv.hopenC j hj
  · intro p hp
    exact hmono p (hinv.hclosedD p hp)
  · exact hinv.hCnodup
  · exact hinv.hgoalC
  · intro i hi hp
    rw [hlen] at hi
    by_cases hie : i = st.arena.length
    · subst hie
      rw [hgetL, hn2] at hp
      cases hp
    · have hi' : i < st.arena.length := by dsimp only; omega
      rw [hgetD i hi'] at hp
      exact hinv.hpnone i hi' hp
  · intro i j hi hp
    rw [hlen] at hi
    by_cases hie : i = st.arena.length
    · subst hie
      rw [hgetL, hn2] at hp
      obtain rfl : curIdx = j := by
        cases hp
        rfl
      refine ⟨by dsimp only; omega, ?_, ?_, ?_⟩
      · rw [hgetD curIdx hcur]
        exact hcurC
      · rw [hgetL, hgetD curIdx hcur, hn1]
        exact hnb
      · rw [hgetL, hn1]
        exact hnpw
    · have hi' : i < st.arena.length := by dsimp only; omega
      rw [hgetD i hi'] at hp
      obtain ⟨h1, h2, h3, h4⟩ := hinv.hpsome i j hi' hp
      refine ⟨by dsimp only; omega, ?_, ?_, ?_⟩
      · rw [hgetD j h1]
        exact h2
      · rw [hgetD i hi', hgetD j h1]
        exact h3
      · rw [hgetD i hi']
        exact h4
  · intro i j hi hiC hp
    rw [hlen] at hi
    by_cases hie : i = st.arena.length
    · subst hie
      rw [hgetL, hn1] at hiC
      exact absurd hiC hnpC
    · have hi' : i < st.arena.length := by dsimp only; omega
      rw [hgetD i hi'] at hiC hp
      have h1 := (hinv.hpsome i j hi' hp).1
      rw [hgetD i hi', hgetD j h1]
      exact hinv.hrank i j hi' hiC hp

/-- One full neighbour-relaxation pass of the A* loop: starting from a
state whose frontier obligation at the just-closed `current` node is
reduced to the unprocessed neighbour list `nps`, the pass restores the
full invariant without increasing the termination measure. -/
theorem astar_relax_spec (m : Maze) (s goal : Pos) (curIdx : Nat) :
    ∀ (nps : List Pos) (st : AState),
    AInvCore m s goal st →
    (∀ p ∈ st.closed, ∀ b ∈ pyNeighbors p, m.is_wall b.1 b.2 = false →
      (alookup st.dict b).isSome ∨
      (p = (st.arena.getD curIdx default).position ∧ b ∈ nps)) →
    (∀ b ∈ nps, b ∈ pyNeighbors ((st.arena.getD curIdx default).position)) →
    curIdx < st.arena.length →
    (st.arena.getD curIdx default).position ∈ st.closed →
    AInv m s goal (astarRelax m goal curIdx nps st) ∧
    aMeasure m (astarRelax m goal curIdx nps st) ≤ aMeasure m st := by
  intro nps
  induction nps with
  | nil =>
    intro st hinv hfr _ _ _
    refine ⟨⟨hinv, ?_⟩, le_refl _⟩
    intro p hp b hb hbw
    rcases hfr p hp b hb hbw with h | ⟨_, h⟩
    · exact h
    · cases h
  | cons np rest ih =>
    intro st hinv hfr hnps hcur hcurC
    by_cases hskip : np ∈ st.closed ∨ m.is_wall np.1 np.2 = true
    · have hstep : astarRelax m goal curIdx (np :: rest) st =
          astarRelax m goal curIdx rest st := by
        simp only [astarRelax]
        rw [if_pos hskip]
      rw [hstep]
      refine ih st hinv ?_ (fun b hb => hnps b (List.mem_cons_of_mem _ hb)) hcur hcurC
      intro p hp b hb hbw
      rcases hfr p hp b hb hbw with h | ⟨hpc, hbnp⟩
      · exact Or.inl h
      · rcases List.mem_cons.mp hbnp with rfl | hbr
        · rcases hskip with h | h
          · exact Or.inl (hinv.hclosedD b h)
          · rw [h] at hbw
            cases hbw
        · exact Or.inr ⟨hpc, hbr⟩
    · push_neg at hskip
      obtain ⟨hnpC, hnpw'⟩ := hskip
      have hnpw : m.is_wall np.1 np.2 = false := by
        cases h : m.is_wall np.1 np.2
        · rfl
        · exact absurd h hnpw'
      have hnpnb : np ∈ pyNeighbors ((st.arena.getD curIdx default).position) :=
        hnps np (List.mem_cons_self _ _)
      rcases hdict : alookup st.dict np with _ | nIdx
      · have hstep : astarRelax m goal curIdx (np :: rest) st =
            astarRelax m goal curIdx rest
              { arena := st.arena ++
                  [{ position := np,
                     g_cost := (st.arena.getD curIdx default).g_cost + 1,
                     h_cost := heuristic np goal,
                     f_cost := (st.arena.getD curIdx default).g_cost + 1 +
                       heuristic np goal,
                     parent := some curIdx }],
                openh := heappush
                  (st.arena ++
                    [{ position := np,
                       g_cost := (st.arena.getD curIdx default).g_cost + 1,
                       h_cost := heuristic np goal,
                       f_cost := (st.arena.getD curIdx default).g_cost + 1 +
                         heuristic np goal,
                       parent := some curIdx }])
                  st.openh st.arena.length,
                closed := st.closed,
                dict := (np, st.arena.length) :: st.dict } := by
          simp only [astarRelax, hdict]
          rw [if_neg (by
            rintro (h | h)
            · exact hnpC h
            · exact hnpw' h)]
        rw [hstep]
        have hcore' := astar_newnode_inv m s goal st curIdx np hinv hdict hnpC hnpw
          hcur hcurC hnpnb
          { position := np,
            g_cost := (st.arena.getD curIdx default).g_cost + 1,
            h_cost := heuristic np goal,
            f_cost := (st.arena.getD curIdx default).g_cost + 1 + heuristic np goal,
            parent := some curIdx }
          rfl rfl
        have hposcur : ∀ node : ANode,
            ((st.arena ++ [node]).getD curIdx default).position =
            (st.arena.getD curIdx default).position := by
          intro node
          rw [getD_concat, if_pos hcur]
        have hnpfresh : np ∉ st.dict.map Prod.fst := by
          intro hcon
          have := (alookup_isSome_iff st.dict np).mpr hcon
          rw [hdict] at this
          cases this
        have hcard := card_sdiff_cons m (st.dict.map Prod.fst) np
          (mem_boundsFinset_of_not_wall m np hnpw) hnpfresh
        obtain ⟨hainv, hameas⟩ := ih _ hcore'
          (by
            intro p hp b hb hbw
            dsimp only at hp ⊢
            rw [hposcur]
            rcases hfr p hp b hb hbw with h | ⟨hpc, hbnp⟩
            · refine Or.inl ?_
              show (if b = np then some st.arena.length else alookup st.dict b).isSome
              by_cases hbe : b = np
              · rw [if_pos hbe]
                rfl
              · rw [if_neg hbe]
                exact h
            · rcases List.mem_cons.mp hbnp with rfl | hbr
              · refine Or.inl ?_
                show (if b = b then some st.arena.length else alookup st.dict b).isSome
                rw [if_pos rfl]
                rfl
              · exact Or.inr ⟨hpc, hbr⟩)
          (by
            intro b hb
            dsimp only
            rw [hposcur]
            exact hnps b (List.mem_cons_of_mem _ hb))
          (by
            dsimp only
            rw [List.length_append, List.length_singleton]
            omega)
          (by
            dsimp only
            rw [hposcur]
            exact hcurC)
        refine ⟨hainv, le_trans hameas ?_⟩
        unfold aMeasure
        dsimp only [List.map_cons]
        rw [length_heappush]
        omega
      · by_cases hg : (st.arena.getD curIdx default).g_cost + 1 <
            (st.arena.getD nIdx default).g_cost
        · have hnIdx0 : nIdx ≠ 0 := by
            rintro rfl
            rw [hinv.hg0] at hg
            omega
          have hstep : astarRelax m goal curIdx (np :: rest) st =
              astarRelax m goal curIdx rest
                { st with
                  arena := st.arena.set nIdx
                    { st.arena.getD nIdx default with
                      g_cost := (st.arena.getD curIdx default).g_cost + 1,
                      f_cost := (st.arena.getD curIdx default).g_cost + 1 +
                        heuristic np goal,
                      parent := some curIdx } } := by
            simp only [astarRelax, hdict]
            rw [if_neg (by
              rintro (h | h)
              · exact hnpC h
              · exact hnpw' h)]
            rw [if_pos hg]
          rw [hstep]
          have hcore' := astar_mutate_inv m s goal st curIdx nIdx np hinv hdict hnpC
            hnpw hcur hcurC hnpnb
            { st.arena.getD nIdx default with
              g_cost := (st.arena.getD curIdx default).g_cost + 1,
              f_cost := (st.arena.getD curIdx default).g_cost + 1 + heuristic np goal,
              parent := some curIdx }
            (hinv.hdictA np nIdx hdict).2 rfl hnIdx0
          have hcurne : curIdx ≠ nIdx := by
            intro he
            rw [← he] at hdict
            rw [(hinv.hdictA np curIdx hdict).2] at hcurC
            exact hnpC hcurC
          have hposcur : ((st.arena.set nIdx
              { st.arena.getD nIdx default with
                g_cost := (st.arena.getD curIdx default).g_cost + 1,
                f_cost := (st.arena.getD curIdx default).g_cost + 1 +
                  heuristic np goal,
                parent := some curIdx }).getD curIdx default).position =
              (st.arena.getD curIdx default).position := by
            rw [getD_set, if_neg (by
              rintro ⟨h1, _⟩
              exact hcurne h1)]
          obtain ⟨hainv, hameas⟩ := ih _ hcore'
            (by
              intro p hp b hb hbw
              dsimp only at hp ⊢
              rw [hposcur]
              rcases hfr p hp b hb hbw with h | ⟨hpc, hbnp⟩
              · exact Or.inl h
              · rcases List.mem_cons.mp hbnp with rfl | hbr
                · refine Or.inl ?_
                  rw [hdict]
                  rfl
                · exact Or.inr ⟨hpc, hbr⟩)
            (by
              intro b hb
              dsimp only
              rw [hposcur]
              exact hnps b (List.mem_cons_of_mem _ hb))
            (by
              dsimp only
              rw [List.length_set]
              exact hcur)
            (by
              dsimp only
              rw [hposcur]
              exact hcurC)
          exact ⟨hainv, hameas⟩
        · have hstep : astarRelax m goal curIdx (np :: rest) st =
              astarRelax m goal curIdx rest st := by
            simp only [astarRelax, hdict]
            rw [if_neg (by
              rintro (h | h)
              · exact hnpC h
              · exact hnpw' h)]
            rw [if_neg hg]
          rw [hstep]
          refine ih st hinv ?_ (fun b hb => hnps b (List.mem_cons_of_mem _ hb))
            hcur hcurC
          intro p hp b hb hbw
          rcases hfr p hp b hb hbw with h | ⟨hpc, hbnp⟩
          · exact Or.inl h
          · rcases List.mem_cons.mp hbnp with rfl | hbr
            · refine Or.inl ?_
              rw [hdict]
              rfl
            · exact Or.inr ⟨hpc, hbr⟩

/-- Full correctness of the A* `while` loop under the loop invariant:
with fuel above the termination measure it returns either the empty
list with no route existing, or a genuine route from `s` to `goal`. -/
theorem astar_loop_spec (m : Maze) (hwf : m.wf) (s goal : Pos)
    (hs : m.is_path s.1 s.2 = true) :
    ∀ (fuel : Nat) (A : List ANode) (H : List Nat) (C : List Pos)
      (D : List (Pos × Nat)),
    AInv m s goal (AState.mk A H C D) →
    aMeasure m (AState.mk A H C D) < fuel →
    (astarLoop m goal fuel (AState.mk A H C D) = [] ∧ ∀ r, ¬ IsRoute m s goal r) ∨
    (IsRoute m s goal (astarLoop m goal fuel (AState.mk A H C D)) ∧
     astarLoop m goal fuel (AState.mk A H C D) ≠ []) := by
  intro fuel
  induction fuel with
  | zero =>
    intro A H C D _ hlt
    exact absurd hlt (Nat.not_lt_zero _)
  | succ fuel ih =>
    intro A H C D hinv hlt
    obtain ⟨hcore, hfro⟩ := hinv
    cases H with
    | nil =>
      left
      refine ⟨rfl, ?_⟩
      intro r hr
      have hallC : ∀ i, i < A.length → (A.getD i default).position ∈ C := by
        intro i hi
        rcases hcore.hcover i hi with h | h
        · exact h
        · cases h
      have hclosure : ∀ p ∈ C, ∀ b ∈ pyNeighbors p,
          m.is_wall b.1 b.2 = false → b ∈ C := by
        intro p hp b hb hbw
        obtain ⟨i, hi⟩ := Option.isSome_iff_exists.mp (hfro p hp b hb hbw)
        obtain ⟨h1, h2⟩ := hcore.hdictA b i hi
        rw [← h2]
        exact hallC i h1
      have hsC : s ∈ C := by
        rw [← hcore.hpos0]
        exact hallC 0 hcore.hlen0
      exact hcore.hgoalC (goal_mem_of_closed m C hclosure r s goal hr hsC)
    | cons h0 t0 =>
      have hne : (h0 :: t0 : List Nat) ≠ [] := List.cons_ne_nil _ _
      rcases hpop : heappop A (h0 :: t0) with ⟨curIdx, H'⟩
      have hcmem : curIdx ∈ h0 :: t0 := by
        have := heappop_fst_mem A (h0 :: t0) hne
        rw [hpop] at this
        exact this
      have hclt : curIdx < A.length := hcore.hheap curIdx hcmem
      have hpcurC : (A.getD curIdx default).position ∉ C := hcore.hopenC curIdx hcmem
      by_cases hfound : (A.getD curIdx default).position = goal
      · have hstep : astarLoop m goal (fuel + 1) (AState.mk A (h0 :: t0) C D) =
            reconstructA A (A.length + 1) curIdx [] := by
          show (if (A.getD (heappop A (h0 :: t0)).1 default).position = goal then
              reconstructA A (A.length + 1) (heappop A (h0 :: t0)).1 []
            else
              astarLoop m goal fuel (astarRelax m goal (heappop A (h0 :: t0)).1
                (pyNeighbors (A.getD (heappop A (h0 :: t0)).1 default).position)
                (AState.mk A (heappop A (h0 :: t0)).2
                  (C ++ [(A.getD (heappop A (h0 :: t0)).1 default).position]) D))) =
            reconstructA A (A.length + 1) curIdx []
          rw [hpop]
          rw [if_pos hfound]
        have hCle : C.length ≤ A.length :=
          closed_card_le A D C hcore.hCnodup hcore.hclosedD hcore.hdictA
        obtain ⟨r, hr1, hr2, hr3, hr4, hr5, hr6⟩ :=
          reconstructA_spec m s A C hcore.hpos0 hcore.hpnone hcore.hpsome hcore.hrank
            C.length curIdx hclt
            (by
              intro j hp
              have h2 := (hcore.hpsome curIdx j hclt hp).2.1
              exact cIndex_lt_length C _ h2)
            (A.length + 1) (by omega) []
        rw [List.append_nil] at hr1
        right
        rw [hstep, hr1]
        refine ⟨⟨hr2, ?_, hr4, ?_⟩, hr6⟩
        · rw [hr3, hfound]
        · intro q hq
          rcases hr5 q hq with rfl | hqw
          · exact hs
          · exact is_path_of_not_is_wall m hwf q.1 q.2 hqw
      · have hstep : astarLoop m goal (fuel + 1) (AState.mk A (h0 :: t0) C D) =
            astarLoop m goal fuel (astarRelax m goal curIdx
              (pyNeighbors (A.getD curIdx default).position)
              (AState.mk A H' (C ++ [(A.getD curIdx default).position]) D)) := by
          show (if (A.getD (heappop A (h0 :: t0)).1 default).position = goal then
              reconstructA A (A.length + 1) (heappop A (h0 :: t0)).1 []
            else
              astarLoop m goal fuel (astarRelax m goal (heappop A (h0 :: t0)).1
                (pyNeighbors (A.getD (heappop A (h0 :: t0)).1 default).position)
                (AState.mk A (heappop A (h0 :: t0)).2
                  (C ++ [(A.getD (heappop A (h0 :: t0)).1 default).position]) D))) = _
          rw [hpop]
          rw [if_neg hfound]
        have hndp : curIdx ∉ H' ∧ H'.Nodup := by
          have := heappop_nodup A (h0 :: t0) hne hcore.hnodup
          rw [hpop] at this
          exact this
        have hsub : ∀ j ∈ H', j ∈ h0 :: t0 := by
          intro j hj
          have := heappop_snd_subset A (h0 :: t0) hne j
          rw [hpop] at this
          exact this hj
        have hcov : ∀ j ∈ h0 :: t0, j = curIdx ∨ j ∈ H' := by
          intro j hj
          have := heappop_cover A (h0 :: t0) hne j hj
          rw [hpop] at this
          exact this
        have hposinj : ∀ j, j < A.length →
            (A.getD j default).position = (A.getD curIdx default).position →
            j = curIdx := by
          intro j hj he
          have h1 := hcore.hAdict j hj
          have h2 := hcore.hAdict curIdx hclt
          rw [he, h2] at h1
          cases h1
          rfl
        have hcore' : AInvCore m s goal
            (AState.mk A H' (C ++ [(A.getD curIdx default).position]) D) := by
          refine ⟨hcore.hlen0, hcore.hpos0, hcore.hpar0, hcore.hg0, hcore.hdictA,
            hcore.hAdict, ?_, hndp.2, ?_, ?_, ?_, ?_, ?_, hcore.hpnone, ?_, ?_⟩
          · intro j hj
            exact hcore.hheap j (hsub j hj)
          · intro i hi
            rcases hcore.hcover i hi with h | h
            · exact Or.inl (List.mem_append.mpr (Or.inl h))
            · rcases hcov i h with rfl | h'
              · exact Or.inl (List.mem_append.mpr (Or.inr (List.mem_singleton.mpr rfl)))
              · exact Or.inr h'
          · intro j hj
            intro hco
            rcases List.mem_append.mp hco with h | h
            · exact hcore.hopenC j (hsub j hj) h
            · rw [List.mem_singleton] at h
              have hj' : j = curIdx := hposinj j (hcore.hheap j (hsub j hj)) h
              subst hj'
              exact hndp.1 hj
          · intro p hp
            rcases List.mem_append.mp hp with h | h
            · exact hcore.hclosedD p h
            · rw [List.mem_singleton] at h
              subst h
              rw [hcore.hAdict curIdx hclt]
              rfl
          · rw [List.nodup_append]
            refine ⟨hcore.hCnodup, List.nodup_singleton _, ?_⟩
            intro a ha hb
            rw [List.mem_singleton] at hb
            subst hb
            exact hpcurC ha
          · intro hco
            rcases List.mem_append.mp hco with h | h
            · exact hcore.hgoalC h
            · rw [List.mem_singleton] at h
              exact hfound h.symm
          · intro i j hi hp
            obtain ⟨h1, h2, h3, h4⟩ := hcore.hpsome i j hi hp
            exact ⟨h1, List.mem_append.mpr (Or.inl h2), h3, h4⟩
          · intro i j hi hiC hp
            have h2 := (hcore.hpsome i j hi hp).2.1
            rw [cIndex_append_of_mem C _ h2]
            rcases List.mem_append.mp hiC with h | h
            · rw [cIndex_append_of_mem C _ h]
              exact hcore.hrank i j hi h hp
            · rw [List.mem_singleton] at h
              have hi' : i = curIdx := hposinj i hi h
              rw [h, cIndex_append_self C _ hpcurC]
              exact cIndex_lt_length C _ h2
        obtain ⟨hainv, hameas⟩ := astar_relax_spec m s goal curIdx
          (pyNeighbors (A.getD curIdx default).position)
          (AState.mk A H' (C ++ [(A.getD curIdx default).position]) D)
          hcore'
          (by
            intro p hp b hb hbw
            rcases List.mem_append.mp hp with h | h
            · exact Or.inl (hfro p h b hb hbw)
            · rw [List.mem_singleton] at h
              subst h
              exact Or.inr ⟨rfl, hb⟩)
          (fun b hb => hb)
          hclt
          (List.mem_append.mpr (Or.inr (List.mem_singleton.mpr rfl)))
        have hm1 : aMeasure m (AState.mk A H' (C ++ [(A.getD curIdx default).position]) D)
            + 1 = aMeasure m (AState.mk A (h0 :: t0) C D) := by
          unfold aMeasure
          dsimp only
          have := heappop_length A (h0 :: t0) hne
          rw [hpop] at this
          dsimp only at this
          omega
        rw [hstep]
        exact ih
          (astarRelax m goal curIdx (pyNeighbors (A.getD curIdx default).position)
            (AState.mk A H' (C ++ [(A.getD curIdx default).position]) D)).arena
          (astarRelax m goal curIdx (pyNeighbors (A.getD curIdx default).position)
            (AState.mk A H' (C ++ [(A.getD curIdx default).position]) D)).openh
          (astarRelax m goal curIdx (pyNeighbors (A.getD curIdx default).position)
            (AState.mk A H' (C ++ [(A.getD curIdx default).position]) D)).closed
          (astarRelax m goal curIdx (pyNeighbors (A.getD curIdx default).position)
            (AState.mk A H' (C ++ [(A.getD curIdx default).position]) D)).dict
          hainv
          ((by omega : aMeasure m (astarRelax m goal curIdx
              (pyNeighbors (A.getD curIdx default).position)
              (AState.mk A H' (C ++ [(A.getD curIdx default).position]) D)) < fuel))

/-- Top-level behaviour of `AStar.find_path` on Path endpoints: it
returns the empty list exactly when no route exists, and otherwise a
genuine (not necessarily shortest) route from `start` to `goal`. -/
theorem astar_find_path_spec (m : Maze) (hwf : m.wf) (s g : Pos)
    (hs : m.is_path s.1 s.2 = true) (hg : m.is_path g.1 g.2 = true) :
    (AStarFindPath m s g = [] ∧ ∀ r, ¬ IsRoute m s g r) ∨
    (IsRoute m s g (AStarFindPath m s g) ∧ AStarFindPath m s g ≠ []) := by
  have hguard : (!(m.is_path s.1 s.2) || !(m.is_path g.1 g.2)) = false := by
    rw [hs, hg]
    rfl
  have hres : AStarFindPath m s g = astarLoop m g (m.width * m.height + 2)
      (AState.mk [ANode.mk s 0 (heuristic s g) (heuristic s g) none]
        [0] [] [(s, 0)]) := by
    unfold AStarFindPath
    rw [if_neg (by rw [hguard]; exact Bool.false_ne_true)]
  have hroot0 : alookup [((s : Pos), (0 : Nat))] s = some 0 := by
    show (if s = s then some 0 else none) = some 0
    rw [if_pos rfl]
  have hinv : AInv m s g (AState.mk [ANode.mk s 0 (heuristic s g) (heuristic s g) none]
      [0] [] [(s, 0)]) := by
    refine ⟨⟨Nat.one_pos, rfl, rfl, rfl, ?_, ?_, ?_, List.nodup_singleton _, ?_, ?_,
      ?_, List.nodup_nil, ?_, ?_, ?_, ?_⟩, ?_⟩
    · intro p i hp
      have hp' : (if p = s then some 0 else none) = some i := hp
      by_cases hpe : p = s
      · rw [if_pos hpe] at hp'
        obtain rfl : (0 : Nat) = i := by
          cases hp'
          rfl
        exact ⟨Nat.one_pos, hpe.symm⟩
      · rw [if_neg hpe] at hp'
        cases hp'
    · intro i hi
      rw [List.length_singleton] at hi
      obtain rfl : i = 0 := by omega
      exact hroot0
    · intro j hj
      rw [List.mem_singleton] at hj
      subst hj
      exact Nat.one_pos
    · intro i hi
      rw [List.length_singleton] at hi
      obtain rfl : i = 0 := by omega
      exact Or.inr (List.mem_singleton.mpr rfl)
    · intro j _
      exact List.not_mem_nil _
    · intro p hp
      cases hp
    · intro hco
      cases hco
    · intro i hi _
      rw [List.length_singleton] at hi
      omega
    · intro i j hi hp
      rw [List.length_singleton] at hi
      obtain rfl : i = 0 := by omega
      cases hp
    · intro i j hi hiC _
      cases hiC
    · intro p hp
      cases hp
  have hmeas : aMeasure m (AState.mk [ANode.mk s 0 (heuristic s g) (heuristic s g) none]
      [0] [] [(s, 0)]) < m.width * m.height + 2 := by
    unfold aMeasure
    dsimp only
    have h1 : (boundsFinset m \ ([(s, 0)].map Prod.fst : List Pos).toFinset).card ≤
        (boundsFinset m).card := Finset.card_le_card Finset.sdiff_subset
    rw [card_boundsFinset] at h1
    simp only [List.length_singleton]
    omega
  rw [hres]
  exact astar_loop_spec m hwf s g hs (m.width * m.height + 2)
    [ANode.mk s 0 (heuristic s g) (heuristic s g) none] [0] [] [(s, 0)] hinv hmeas

/-- C1 (amended): on every well-formed maze and Path endpoints,
`BFS.find_path` returns the empty path exactly when no 4-directional
Path-only route exists and otherwise a shortest such route; 
`AStar.find_path` also returns the empty path exactly when no route
exists and always returns a genuine route from start to goal — but (see
the counterexample) not always one of minimal length, because the
in-place mutation of open-heap nodes breaks the heap invariant. -/
theorem astar_bfs_amended (m : Maze) (hwf : m.wf) (s g : Pos)
    (hs : m.is_path s.1 s.2 = true) (hg : m.is_path g.1 g.2 = true) :
    (BFSFindPath m s g = [] ↔ ∀ r, ¬ IsRoute m s g r) ∧
    (BFSFindPath m s g ≠ [] → IsRoute m s g (BFSFindPath m s g) ∧
      ∀ r, IsRoute m s g r → (BFSFindPath m s g).length ≤ r.length) ∧
    (AStarFindPath m s g = [] ↔ ∀ r, ¬ IsRoute m s g r) ∧
    (AStarFindPath m s g ≠ [] → IsRoute m s g (AStarFindPath m s g)) := by
  have hb := bfs_find_path_spec m hwf s g hs hg
  have ha := astar_find_path_spec m hwf s g hs hg
  refine ⟨⟨?_, ?_⟩, ?_, ⟨?_, ?_⟩, ?_⟩
  · intro he r hr
    rcases hb with ⟨_, hnr⟩ | ⟨hroute, _⟩
    · exact hnr r hr
    · rw [he] at hroute
      cases hroute.1
  · intro hnr
    rcases hb with ⟨he, _⟩ | ⟨hroute, _⟩
    · exact he
    · exact absurd hroute (hnr _)
  · intro hne
    rcases hb with ⟨he, _⟩ | ⟨hroute, hmin⟩
    · exact absurd he hne
    · exact ⟨hroute, hmin⟩
  · intro he r hr
    rcases ha with ⟨_, hnr⟩ | ⟨hroute, _⟩
    · exact hnr r hr
    · rw [he] at hroute
      cases hroute.1
  · intro hnr
    rcases ha with ⟨he, _⟩ | ⟨hroute, _⟩
    · exact he
    · exact absurd hroute (hnr _)
  · intro hne
    rcases ha with ⟨he, _⟩ | ⟨hroute, _⟩
    · exact absurd he hne
    · exact hroute

/-- Witness for the amended C1 at the concrete 9×7 maze and Path
endpoints of the counterexample run. -/
theorem astar_bfs_amended_witness :
    cexMaze.wf ∧ cexMaze.is_path 7 2 = true ∧ cexMaze.is_path 1 1 = true ∧
    ((BFSFindPath cexMaze (7, 2) (1, 1) = [] ↔
        ∀ r, ¬ IsRoute cexMaze (7, 2) (1, 1) r) ∧
     (BFSFindPath cexMaze (7, 2) (1, 1) ≠ [] →
        IsRoute cexMaze (7, 2) (1, 1) (BFSFindPath cexMaze (7, 2) (1, 1)) ∧
        ∀ r, IsRoute cexMaze (7, 2) (1, 1) r →
          (BFSFindPath cexMaze (7, 2) (1, 1)).length ≤ r.length) ∧
     (AStarFindPath cexMaze (7, 2) (1, 1) = [] ↔
        ∀ r, ¬ IsRoute cexMaze (7, 2) (1, 1) r) ∧
     (AStarFindPath cexMaze (7, 2) (1, 1) ≠ [] →
        IsRoute cexMaze (7, 2) (1, 1) (AStarFindPath cexMaze (7, 2) (1, 1)))) :=
  ⟨by decide, by decide, by decide,
    astar_bfs_amended cexMaze (by decide) (7, 2) (1, 1) (by decide) (by decide)⟩

/-- C7: for each of the three strategies on every well-formed maze and
every coordinate pair, a non-empty returned path starts at `start` and
ends at `goal` (on invalid endpoints all three return the empty path,
so the implication is vacuous there). -/
theorem find_path_endpoints (m : Maze) (hwf : m.wf) (s g : Pos) :
    (AStarFindPath m s g ≠ [] → (AStarFindPath m s g).head? = some s ∧
      (AStarFindPath m s g).getLast? = some g) ∧
    (BFSFindPath m s g ≠ [] → (BFSFindPath m s g).head? = some s ∧
      (BFSFindPath m s g).getLast? = some g) ∧
    (DFSFindPath m s g ≠ [] → (DFSFindPath m s g).head? = some s ∧
      (DFSFindPath m s g).getLast? = some g) := by
  by_cases hok : m.is_path s.1 s.2 = true ∧ m.is_path g.1 g.2 = true
  · obtain ⟨hs, hg⟩ := hok
    refine ⟨?_, ?_, ?_⟩
    · intro hne
      rcases astar_find_path_spec m hwf s g hs hg with ⟨he, _⟩ | ⟨hroute, _⟩
      · exact absurd he hne
      · exact ⟨hroute.1, hroute.2.1⟩
    · intro hne
      rcases bfs_find_path_spec m hwf s g hs hg with ⟨he, _⟩ | ⟨hroute, _⟩
      · exact absurd he hne
      · exact ⟨hroute.1, hroute.2.1⟩
    · intro hne
      rcases dfs_run_spec m s g hs hg with ⟨he, _⟩ | ⟨_, hh, hl, _, _⟩
      · exact absurd he hne
      · exact ⟨hh, hl⟩
  · have hguard : (!(m.is_path s.1 s.2) || !(m.is_path g.1 g.2)) = true := by
      rcases not_and_or.mp hok with h | h
      · rw [Bool.eq_false_iff.mpr h]
        rfl
      · rw [Bool.eq_false_iff.mpr h, Bool.not_false, Bool.or_true]
    have hA : AStarFindPath m s g = [] := by
      unfold AStarFindPath
      rw [if_pos hguard]
    have hB : BFSFindPath m s g = [] := by
      unfold BFSFindPath
      rw [if_pos hguard]
    have hD : DFSFindPath m s g = [] := by
      unfold DFSFindPath
      rw [if_pos hguard]
    exact ⟨fun h => absurd hA h, fun h => absurd hB h, fun h => absurd hD h⟩

/-- Witness for C7 at the concrete 9×7 maze and Path endpoints. -/
theorem find_path_endpoints_witness :
    cexMaze.wf ∧
    ((AStarFindPath cexMaze (7, 2) (1, 1) ≠ [] →
        (AStarFindPath cexMaze (7, 2) (1, 1)).head? = some (7, 2) ∧
        (AStarFindPath cexMaze (7, 2) (1, 1)).getLast? = some (1, 1)) ∧
     (BFSFindPath cexMaze (7, 2) (1, 1) ≠ [] →
        (BFSFindPath cexMaze (7, 2) (1, 1)).head? = some (7, 2) ∧
        (BFSFindPath cexMaze (7, 2) (1, 1)).getLast? = some (1, 1)) ∧
     (DFSFindPath cexMaze (7, 2) (1, 1) ≠ [] →
        (DFSFindPath cexMaze (7, 2) (1, 1)).head? = some (7, 2) ∧
        (DFSFindPath cexMaze (7, 2) (1, 1)).getLast? = some (1, 1))) :=
  ⟨by decide, find_path_endpoints cexMaze (by decide) (7, 2) (1, 1)⟩
